import Mathlib

/-!
# Depth quantisation and radix sort pass of gsplat.js (`wasm/wasm.cpp`)

A shallow embedding of the two functions `calculateDepth` and `radixSortPass` and the
properties of them that are proved here.

* Buffers are lists; an access outside a buffer makes the call return `none`.
* `uint32_t` values are natural numbers, `int32_t` values are integers; arithmetic that can
  leave the range is reduced explicitly.
* `float` is IEEE 754 binary32 with round to nearest, ties to even; the result of a
  `float → integer` conversion whose operand is a NaN, an infinity or out of the range of
  the destination is not fixed by the source and is a parameter (`Target`).
* The buffers passed to one call do not overlap.
-/

namespace Gsplat

/-! ## `radixSortPass` -/

/-- Counted loop `for (i = 0; i < n; i++) body`: the state after `n` iterations,
`none` as soon as one iteration fails. -/
def forLoop {σ : Type} (body : Nat → σ → Option σ) : Nat → σ → Option σ
  | 0, s => some s
  | n + 1, s => (forLoop body n s).bind (body n)

/-- Checked store `a[i] = v` into a buffer. -/
def store (a : List Nat) (i v : Nat) : Option (List Nat) :=
  if i < a.length then some (a.set i v) else none

/-- `memset(counts, 0, 256 * sizeof(uint32_t))`. -/
def memsetCounts (counts : List Nat) : Option (List Nat) :=
  if 256 ≤ counts.length then some (List.replicate 256 0 ++ counts.drop 256) else none

/-- `(input[idx] >> bitOffset) & 0xff`; a shift count outside `0..31` has no defined
result. -/
def bitPattern (input : List Nat) (bitOffset : Int) (idx : Nat) : Option Nat :=
  if 0 ≤ bitOffset ∧ bitOffset < 32 then
    (input[idx]?).map (fun k => (k >>> bitOffset.toNat) &&& 0xff)
  else none

/-- Body of the counting loop (wasm.cpp lines 44-45). -/
def countBody (input indices : List Nat) (bitOffset : Int) (i : Nat) (counts : List Nat) :
    Option (List Nat) :=
  (indices[i]?).bind fun idx =>
  (bitPattern input bitOffset idx).bind fun b =>
  (counts[b]?).bind fun c =>
  store counts b ((c + 1) % 2 ^ 32)

/-- Body of the accumulation loop (wasm.cpp lines 52-54); the state is `(counts, total)`. -/
def accumBody (i : Nat) (s : List Nat × Nat) : Option (List Nat × Nat) :=
  (s.1[i]?).bind fun oldCount =>
  (store s.1 i s.2).map fun counts => (counts, (s.2 + oldCount) % 2 ^ 32)

/-- Body of the scatter loop (wasm.cpp lines 60-61); the state is `(sortedIndices, counts)`. -/
def scatterBody (input indices : List Nat) (bitOffset : Int) (i : Nat)
    (s : List Nat × List Nat) : Option (List Nat × List Nat) :=
  (indices[i]?).bind fun idx =>
  (bitPattern input bitOffset idx).bind fun b =>
  (s.2[b]?).bind fun c =>
  (store s.2 b ((c + 1) % 2 ^ 32)).bind fun counts =>
  (store s.1 c idx).map fun sorted => (sorted, counts)

/-- The counts buffer as the scatter loop finds it: after the memset, the counting loop and
the accumulation loop. -/
def offsetsPhase (input indices counts : List Nat) (vertexCount : Nat) (bitOffset : Int) :
    Option (List Nat) :=
  (memsetCounts counts).bind fun c0 =>
  (forLoop (countBody input indices bitOffset) vertexCount c0).bind fun c1 =>
  (forLoop accumBody 256 (c1, 0)).map fun s => s.1

/-- The state `(sortedIndices, counts)` after the first `n` iterations of the scatter loop. -/
def scatterPhase (input indices sortedIndices counts : List Nat) (vertexCount : Nat)
    (bitOffset : Int) (n : Nat) : Option (List Nat × List Nat) :=
  (offsetsPhase input indices counts vertexCount bitOffset).bind fun c2 =>
  forLoop (scatterBody input indices bitOffset) n (sortedIndices, c2)

/-- The function `radixSortPass` of wasm.cpp; the result is `(sortedIndices, counts)` as the
call leaves them, `none` when an access falls outside its buffer or a shift by a count
outside `0..31` is evaluated. -/
def radixSortPass (input indices sortedIndices counts : List Nat) (vertexCount : Nat)
    (bitOffset : Int) : Option (List Nat × List Nat) :=
  scatterPhase input indices sortedIndices counts vertexCount bitOffset vertexCount



/-- Modelled from the spec: the host driver, which is not part of wasm.cpp. It calls
`radixSortPass` once per bit offset of the list, in order, each pass reading the buffer the
previous pass wrote and writing the buffer the previous pass read (ping-pong), with the same
counts buffer throughout. The result is `(last output, other buffer, counts)`. -/
def sortPasses (input : List Nat) (vertexCount : Nat) :
    List Int → List Nat → List Nat → List Nat → Option (List Nat × List Nat × List Nat)
  | [], indices, buf, counts => some (indices, buf, counts)
  | bitOffset :: rest, indices, buf, counts =>
    (radixSortPass input indices buf counts vertexCount bitOffset).bind fun r =>
      sortPasses input vertexCount rest r.1 indices r.2

/-! ## IEEE 754 binary32 arithmetic, round to nearest, ties to even -/

/-- A binary32 value. A finite value `fin neg m E` is `(-1)^neg * m * 2^(E - 149)`: the
exponent is stored with a bias of 149, so that `E = 0` is the subnormal binade. In canonical
form `m < 2^24`, `E ≤ 253`, and `2^23 ≤ m` unless `E = 0`. -/
inductive F32 where
  | nan : F32
  | inf (neg : Bool) : F32
  | fin (neg : Bool) (m : Nat) (E : Nat) : F32
  deriving DecidableEq

/-- Number of binary digits of `n`, by halving at most `fuel` times. -/
def bitsAux : Nat → Nat → Nat
  | 0, _ => 0
  | fuel + 1, n => if n = 0 then 0 else bitsAux fuel (n / 2) + 1

/-- Number of binary digits of `n` (`0` for `0`). -/
def bits (n : Nat) : Nat := bitsAux n n

/-- The integer part of `(n / d) / 2^(E - 149)`. -/
def scaledQuot (n d E : Nat) : Nat := (n * 2 ^ 149) / (d * 2 ^ E)

/-- The remainder that goes with `scaledQuot`. -/
def scaledRem (n d E : Nat) : Nat := (n * 2 ^ 149) % (d * 2 ^ E)

/-- Packs a rounded significand `q ≤ 2^24` with biased exponent `E`: the carry into bit 24
moves to the next binade and a biased exponent above 253 overflows to infinity. -/
def pack (neg : Bool) (q E : Nat) : F32 :=
  if q = 2 ^ 24 then (if 253 < E + 1 then F32.inf neg else F32.fin neg (2 ^ 23) (E + 1))
  else (if 253 < E then F32.inf neg else F32.fin neg q E)

/-- Biased exponent of the unit in the last place for the positive rational `n / d`: the
least `E` for which the integer part of `(n / d) / 2^(E - 149)` is below `2^24`. -/
def ulpExp (n d : Nat) : Nat :=
  let E0 := bits n + 125 - bits d
  if 2 ^ 24 ≤ scaledQuot n d E0 then E0 + 1 else E0

/-- Significand rounded to nearest, ties to even: `q` is the quotient, `r` the remainder and
`den` the divisor. -/
def roundQuot (q r den : Nat) : Nat :=
  if den < 2 * r ∨ (den = 2 * r ∧ q % 2 = 1) then q + 1 else q

/-- Rounds the rational `(-1)^neg * n / d` (`d > 0`) to binary32, nearest with ties to even. -/
def roundNE (neg : Bool) (n d : Nat) : F32 :=
  if n = 0 then F32.fin neg 0 0
  else
    pack neg (roundQuot (scaledQuot n d (ulpExp n d)) (scaledRem n d (ulpExp n d))
      (d * 2 ^ ulpExp n d)) (ulpExp n d)

namespace F32

/-- Float multiplication. -/
def mul : F32 → F32 → F32
  | nan, _ => nan
  | _, nan => nan
  | inf s, inf t => inf (xor s t)
  | inf s, fin t m _ => if m = 0 then nan else inf (xor s t)
  | fin s m _, inf t => if m = 0 then nan else inf (xor s t)
  | fin s m E, fin t k F => roundNE (xor s t) (m * 2 ^ E * (k * 2 ^ F)) (2 ^ 149 * 2 ^ 149)

/-- Float addition. -/
def add : F32 → F32 → F32
  | nan, _ => nan
  | _, nan => nan
  | inf s, inf t => if s = t then inf s else nan
  | inf s, fin _ _ _ => inf s
  | fin _ _ _, inf t => inf t
  | fin s m E, fin t k F =>
    let a : Int := (if s then -1 else 1) * ((m * 2 ^ E : Nat) : Int)
    let b : Int := (if t then -1 else 1) * ((k * 2 ^ F : Nat) : Int)
    if a + b = 0 then fin (s && t) 0 0
    else roundNE (decide (a + b < 0)) (a + b).natAbs (2 ^ 149)

/-- Float division. -/
def div : F32 → F32 → F32
  | nan, _ => nan
  | _, nan => nan
  | inf _, inf _ => nan
  | inf s, fin t _ _ => inf (xor s t)
  | fin s _ _, inf t => fin (xor s t) 0 0
  | fin s m E, fin t k F =>
    if k = 0 then (if m = 0 then nan else inf (xor s t))
    else roundNE (xor s t) (m * 2 ^ E) (k * 2 ^ F)

/-- Conversion of an integer to float. -/
def ofInt (z : Int) : F32 := roundNE (decide (z < 0)) z.natAbs 1

/-- The integer obtained by discarding the fractional part (`none` for NaN and infinities). -/
def trunc : F32 → Option Int
  | nan => none
  | inf _ => none
  | fin s m E => some ((if s then -1 else 1) * ((m * 2 ^ E / 2 ^ 149 : Nat) : Int))

/-- The literal `1.0f`. -/
def one : F32 := fin false (2 ^ 23) 126

end F32

/-! ## `calculateDepth` -/

/-- What the float-to-integer conversions yield where the C++ standard leaves the result
open (NaN, infinities and values whose integer part does not fit the destination type).
The source contains no code for these cases, so the result is whatever the compilation
target's conversion produces; it is a parameter of the model. -/
structure Target where
  /-- Result of `float → int32_t` outside the representable range. -/
  f2i : F32 → Int
  /-- Result of `float → uint32_t` outside the representable range. -/
  f2u : F32 → Nat

/-- Reduction of an integer to the `int32_t` range (two's complement wrap-around). -/
def wrapInt32 (z : Int) : Int := (z + 2 ^ 31) % 2 ^ 32 - 2 ^ 31

/-- Reduction of an integer to the `uint32_t` range. -/
def wrapUInt32 (z : Int) : Nat := (z % 2 ^ 32).toNat

/-- The conversion `float → int32_t`: truncation toward zero when that fits. -/
def toInt32 (t : Target) (x : F32) : Int :=
  match x.trunc with
  | some z => if -2 ^ 31 ≤ z ∧ z < 2 ^ 31 then z else wrapInt32 (t.f2i x)
  | none => wrapInt32 (t.f2i x)

/-- The conversion `float → uint32_t`: truncation toward zero when that fits. -/
def toUInt32 (t : Target) (x : F32) : Nat :=
  match x.trunc with
  | some z => if 0 ≤ z ∧ z < 2 ^ 32 then z.toNat else t.f2u x % 2 ^ 32
  | none => t.f2u x % 2 ^ 32

/-- The value `depth` of iteration `i` of the first loop (wasm.cpp lines 14-17). -/
def rawDepth (t : Target) (viewProj fBuffer : List F32) (i : Nat) : Option Int :=
  (viewProj[2]?).bind fun v2 =>
  (fBuffer[(3 * i + 0) % 2 ^ 32]?).bind fun x =>
  (viewProj[6]?).bind fun v6 =>
  (fBuffer[(3 * i + 1) % 2 ^ 32]?).bind fun y =>
  (viewProj[10]?).bind fun v10 =>
  (fBuffer[(3 * i + 2) % 2 ^ 32]?).bind fun z =>
  let f0 := F32.mul v2 x
  let f1 := F32.mul v6 y
  let f2 := F32.mul v10 z
  some (toInt32 t (F32.mul (F32.add (F32.add f0 f1) f2) (F32.ofInt 4096)))

/-- Body of the first loop (wasm.cpp lines 14-26); the state is
`(depthBuffer, minDepth, maxDepth)`. -/
def depthBody (t : Target) (viewProj fBuffer : List F32) (i : Nat)
    (s : List Nat × Int × Int) : Option (List Nat × Int × Int) :=
  (rawDepth t viewProj fBuffer i).bind fun depth =>
  (store s.1 i (wrapUInt32 depth)).map fun depthBuffer =>
    (depthBuffer, (if depth < s.2.1 then depth else s.2.1),
      (if depth > s.2.2 then depth else s.2.2))

/-- The first loop (wasm.cpp lines 10-27): `(depthBuffer, minDepth, maxDepth)` after it. -/
def depthPhase (t : Target) (viewProj fBuffer : List F32) (depthBuffer : List Nat)
    (vertexCount : Int) : Option (List Nat × Int × Int) :=
  forLoop (depthBody t viewProj fBuffer) (wrapUInt32 vertexCount)
    (depthBuffer, 0x7fffffff, wrapInt32 0x80000000)

/-- The value `depthInv` (wasm.cpp line 29). -/
def depthInv (minDepth maxDepth : Int) : F32 :=
  F32.div F32.one (F32.ofInt (wrapInt32 (maxDepth - minDepth)))

/-- The key written by line 32 from the cell content `d`. -/
def quantize (t : Target) (minDepth : Int) (dInv : F32) (d : Nat) : Nat :=
  toUInt32 t (F32.mul
    (F32.mul (F32.ofInt (wrapUInt32 ((d : Int) - (wrapUInt32 minDepth : Int)))) dInv)
    (F32.ofInt 0xffff))

/-- Body of the second loop (wasm.cpp lines 32-33); the state is `(depthBuffer, indices)`. -/
def normBody (t : Target) (minDepth : Int) (dInv : F32) (i : Nat)
    (s : List Nat × List Nat) : Option (List Nat × List Nat) :=
  (s.1[i]?).bind fun d =>
  (store s.1 i (quantize t minDepth dInv d)).bind fun depthBuffer =>
  (store s.2 i i).map fun indices => (depthBuffer, indices)

/-- The function `calculateDepth` of wasm.cpp; the result is `(depthBuffer, indices)` as the
call leaves them, `none` when an access falls outside its buffer. -/
def calculateDepth (t : Target) (viewProj fBuffer : List F32) (depthBuffer indices : List Nat)
    (vertexCount : Int) : Option (List Nat × List Nat) :=
  (depthPhase t viewProj fBuffer depthBuffer vertexCount).bind fun s =>
  forLoop (normBody t s.2.1 (depthInv s.2.1 s.2.2)) (wrapUInt32 vertexCount) (s.1, indices)

/-- A target whose `float → uint32_t` conversion yields the all-ones pattern for every input
outside the range, as the RISC-V instruction `fcvt.wu.s` does for NaN and for values that
are too large; its signed conversion saturates. -/
def allOnesTarget : Target where
  f2i := fun x => match x with
    | F32.inf true => -2 ^ 31
    | F32.fin true _ _ => -2 ^ 31
    | _ => 2 ^ 31 - 1
  f2u := fun _ => 0xFFFFFFFF

/-- A target whose `float → int32_t` conversion yields `INT32_MIN` for every input outside
the range, as the "integer indefinite" result of the x86 instruction `cvttss2si`; its
unsigned conversion yields `0` there. -/
def indefiniteTarget : Target where
  f2i := fun _ => -2 ^ 31
  f2u := fun _ => 0

/-! ## Pure counting devices used by the proofs -/

/-- Digit of the key stored at position `x` of the key buffer. -/
def keyDigit (input : List Nat) (bitOffset : Nat) (x : Nat) : Nat :=
  (input.getD x 0 >>> bitOffset) &&& 0xff

/-- Number of elements of `l` whose digit is `b`. -/
def cnt (d : Nat → Nat) (b : Nat) (l : List Nat) : Nat := l.countP (fun x => d x = b)

/-- Number of elements of `l` whose digit is below `b`. -/
def lows (d : Nat → Nat) (b : Nat) (l : List Nat) : Nat := l.countP (fun x => d x < b)

/-- A counts buffer whose first 256 cells hold `f 0 .. f 255`. -/
def tbl (f : Nat → Nat) (rest : List Nat) : List Nat := (List.range 256).map f ++ rest

/-- Concatenation of the buckets `0 .. B-1`, each in input order. -/
def bucketConcat (d : Nat → Nat) (xs : List Nat) : Nat → List Nat
  | 0 => []
  | B + 1 => bucketConcat d xs B ++ xs.filter (fun x => d x = B)

/-- Position at which the scatter loop writes the element of input position `j`. -/
def scatterPos (d : Nat → Nat) (xs : List Nat) (j : Nat) : Nat :=
  lows d (d (xs.getD j 0)) xs + cnt d (d (xs.getD j 0)) (xs.take j)

/-- The output buffer after `n` scatter writes. -/
def scat (d : Nat → Nat) (xs out : List Nat) : Nat → List Nat
  | 0 => out
  | n + 1 => (scat d xs out n).set (scatterPos d xs n) (xs.getD n 0)

/-- The list computed by a run of passes, on the first `N` cells. -/
def purePasses (input : List Nat) : List Int → List Nat → List Nat
  | [], xs => xs
  | bitOffset :: rest, xs =>
    purePasses input rest (bucketConcat (keyDigit input bitOffset.toNat) xs 256)

/-- The float that line 17 converts to `depth` for vertex `i`. -/
def scaledDepth (viewProj fBuffer : List F32) (i : Nat) : F32 :=
  F32.mul
    (F32.add
      (F32.add
        (F32.mul (viewProj.getD 2 F32.nan) (fBuffer.getD ((3 * i + 0) % 2 ^ 32) F32.nan))
        (F32.mul (viewProj.getD 6 F32.nan) (fBuffer.getD ((3 * i + 1) % 2 ^ 32) F32.nan)))
      (F32.mul (viewProj.getD 10 F32.nan) (fBuffer.getD ((3 * i + 2) % 2 ^ 32) F32.nan)))
    (F32.ofInt 4096)

/-- The raw fixed-point depth of vertex `i`. -/
def rawAt (t : Target) (viewProj fBuffer : List F32) (i : Nat) : Int :=
  toInt32 t (scaledDepth viewProj fBuffer i)

/-- The variable `minDepth` after `n` iterations of the first loop. -/
def minUpTo (raw : Nat → Int) : Nat → Int
  | 0 => 0x7fffffff
  | n + 1 => if raw n < minUpTo raw n then raw n else minUpTo raw n

/-- The variable `maxDepth` after `n` iterations of the first loop. -/
def maxUpTo (raw : Nat → Int) : Nat → Int
  | 0 => wrapInt32 0x80000000
  | n + 1 => if raw n > maxUpTo raw n then raw n else maxUpTo raw n

/-- The reference of the refinement claim, in the words of the spec: the stable counting sort
by one byte is the concatenation, for `b = 0, 1, ..., 255` in that order, of the subsequence
of the input (kept in input order) whose digit `(depthKeys[x] >> bitOffset) & 0xFF` equals
`b`. -/
def stableCountingSort (depthKeys : List Nat) (bitOffset : Nat) (xs : List Nat) : List Nat :=
  (List.range 256).flatMap fun b =>
    xs.filter fun x => ((depthKeys.getD x 0 >>> bitOffset) &&& 0xFF) = b

/-- The float that line 32 converts to the key, for a cell holding `d`. -/
def keyProduct (minDepth : Int) (dInv : F32) (d : Nat) : F32 :=
  F32.mul
    (F32.mul (F32.ofInt (wrapUInt32 ((d : Int) - (wrapUInt32 minDepth : Int)))) dInv)
    (F32.ofInt 0xffff)

/-- What `roundNE` computes for a positive rational whose value in units of `2^-149` is `X`:
`q` is the integer part of `X / 2^E`, the exponent `E` leaves `q` exactly 24 bits unless the
value is subnormal, and `Q` is `q` rounded to nearest with ties to even. -/
structure RoundSpec (X : ℚ) (E q Q : Nat) : Prop where
  /-- The quotient has at most 24 bits. -/
  q_lt : q < 2 ^ 24
  /-- The quotient has 24 bits above the subnormal binade. -/
  normal : E = 0 ∨ 2 ^ 23 ≤ q
  /-- The quotient is the integer part: lower bound. -/
  lower : (q : ℚ) * 2 ^ E ≤ X
  /-- The quotient is the integer part: upper bound. -/
  upper : X < ((q : ℚ) + 1) * 2 ^ E
  /-- The rounded significand is the quotient or its successor. -/
  cases : Q = q ∨ Q = q + 1
  /-- Rounding up happens above the midpoint, and at the midpoint of an odd quotient. -/
  up_iff : Q = q + 1 ↔
    (((q : ℚ) + 1 / 2) * 2 ^ E < X ∨ (((q : ℚ) + 1 / 2) * 2 ^ E = X ∧ q % 2 = 1))

/-- The float `x` is not a NaN and its sign bit is `s`. -/
def F32.Signed (s : Bool) (x : F32) : Prop :=
  x = F32.inf s ∨ ∃ m E, x = F32.fin s m E

theorem tbl_length (f : Nat → Nat) (rest : List Nat) : (tbl f rest).length = 256 + rest.length := by
  simp [tbl]

theorem tbl_get (f : Nat → Nat) (rest : List Nat) {b : Nat} (hb : b < 256) :
    (tbl f rest)[b]? = some (f b) := by
  unfold tbl
  rw [List.getElem?_append_left (by simpa using hb), List.getElem?_map,
    List.getElem?_range hb]
  rfl

theorem tbl_congr {f g : Nat → Nat} (rest : List Nat) (h : ∀ b, b < 256 → f b = g b) :
    tbl f rest = tbl g rest := by
  unfold tbl
  congr 1
  apply List.map_congr_left
  intro b hb
  exact h b (List.mem_range.mp hb)

theorem tbl_set (f : Nat → Nat) (rest : List Nat) {b : Nat} (hb : b < 256) (v : Nat) :
    (tbl f rest).set b v = tbl (Function.update f b v) rest := by
  apply List.ext_getElem?
  intro n
  rw [List.getElem?_set]
  by_cases hn : n < 256
  · rw [tbl_get (Function.update f b v) rest hn]
    by_cases hbn : b = n
    · subst hbn
      have hl : b < (tbl f rest).length := by rw [tbl_length]; omega
      simp [hl]
    · simp [hbn, tbl_get _ _ hn, Function.update, Ne.symm hbn]
  · have hbn : b ≠ n := by omega
    simp only [hbn, if_false]
    unfold tbl
    rw [List.getElem?_append_right (by simp; omega), List.getElem?_append_right (by simp; omega)]
    simp

theorem store_tbl (f : Nat → Nat) (rest : List Nat) {b : Nat} (hb : b < 256) (v : Nat) :
    store (tbl f rest) b v = some (tbl (Function.update f b v) rest) := by
  unfold store
  rw [if_pos (by rw [tbl_length]; omega), tbl_set f rest hb]

theorem replicate_zero_eq (n : Nat) :
    List.replicate n 0 = (List.range n).map (fun _ => 0) := by
  apply List.ext_getElem?
  intro k
  rw [List.getElem?_replicate, List.getElem?_map]
  by_cases hk : k < n
  · simp [hk, List.getElem?_range hk]
  · have hk2 : (List.range n)[k]? = none := List.getElem?_eq_none (by simp; omega)
    simp [hk, hk2]

theorem memsetCounts_eq {counts : List Nat} (h : 256 ≤ counts.length) :
    memsetCounts counts = some (tbl (fun _ => 0) (counts.drop 256)) := by
  unfold memsetCounts tbl
  rw [if_pos h, replicate_zero_eq]

theorem keyDigit_lt (input : List Nat) (off x : Nat) : keyDigit input off x < 256 := by
  unfold keyDigit
  have h : ∀ y : Nat, y &&& 0xff = y % 256 := fun y => Nat.and_pow_two_sub_one_eq_mod y 8
  rw [h]
  omega

theorem bitPattern_eq {input : List Nat} (off : Int) (hoff : 0 ≤ off ∧ off < 32) {x : Nat}
    (hx : x < input.length) : bitPattern input off x = some (keyDigit input off.toNat x) := by
  unfold bitPattern keyDigit
  rw [if_pos hoff, List.getElem?_eq_getElem hx, List.getD_eq_getElem?_getD,
    List.getElem?_eq_getElem hx]
  rfl

/-! ### Counting facts -/

theorem cnt_take_succ (d : Nat → Nat) (xs : List Nat) {j : Nat} (hj : j < xs.length) (b : Nat) :
    cnt d b (xs.take (j + 1)) = cnt d b (xs.take j) + if d (xs.getD j 0) = b then 1 else 0 := by
  unfold cnt
  rw [List.take_succ, List.countP_append, List.getD_eq_getElem?_getD,
    List.getElem?_eq_getElem hj]
  simp [List.countP_cons]

theorem cnt_take_le (d : Nat → Nat) (xs : List Nat) (j b : Nat) :
    cnt d b (xs.take j) ≤ cnt d b xs :=
  List.Sublist.countP_le _ (List.take_sublist j xs)

theorem cnt_take_mono (d : Nat → Nat) (xs : List Nat) {i j : Nat} (hij : i ≤ j) (b : Nat) :
    cnt d b (xs.take i) ≤ cnt d b (xs.take j) := by
  have h : xs.take i = (xs.take j).take i := by
    rw [List.take_take, Nat.min_eq_left hij]
  rw [h]
  exact cnt_take_le d _ i b

theorem lows_add_cnt (d : Nat → Nat) (b : Nat) (l : List Nat) :
    lows d b l + cnt d b l = lows d (b + 1) l := by
  unfold lows cnt
  induction l with
  | nil => rfl
  | cons a t ih =>
    simp only [List.countP_cons, decide_eq_true_eq]
    by_cases h1 : d a < b
    · have h2 : ¬ d a = b := by omega
      have h3 : d a < b + 1 := by omega
      rw [if_pos h1, if_neg h2, if_pos h3]
      omega
    · by_cases h2 : d a = b
      · have h3 : d a < b + 1 := by omega
        rw [if_neg h1, if_pos h2, if_pos h3]
        omega
      · have h3 : ¬ d a < b + 1 := by omega
        rw [if_neg h1, if_neg h2, if_neg h3]
        omega

theorem lows_mono (d : Nat → Nat) {b c : Nat} (h : b ≤ c) (l : List Nat) :
    lows d b l ≤ lows d c l := by
  induction h with
  | refl => exact Nat.le_refl _
  | step _ ih => exact Nat.le_trans ih (by rw [← lows_add_cnt]; exact Nat.le_add_right _ _)

theorem lows_le_length (d : Nat → Nat) (b : Nat) (l : List Nat) : lows d b l ≤ l.length :=
  List.countP_le_length _

theorem lows_zero (d : Nat → Nat) (l : List Nat) : lows d 0 l = 0 := by
  unfold lows
  induction l with
  | nil => rfl
  | cons a t ih => simp [List.countP_cons, ih]

theorem lows_eq_length (d : Nat → Nat) (B : Nat) (l : List Nat) (h : ∀ x ∈ l, d x < B) :
    lows d B l = l.length := by
  unfold lows
  rw [List.countP_eq_length]
  intro x hx
  simpa using h x hx

/-- The write position of input position `j` lies inside the bucket of its digit. -/
theorem scatterPos_lt_next (d : Nat → Nat) (xs : List Nat) {j : Nat} (hj : j < xs.length) :
    scatterPos d xs j < lows d (d (xs.getD j 0) + 1) xs := by
  unfold scatterPos
  rw [← lows_add_cnt]
  have h1 := cnt_take_succ d xs hj (d (xs.getD j 0))
  have h2 := cnt_take_le d xs (j + 1) (d (xs.getD j 0))
  simp only [if_true] at h1
  omega

theorem scatterPos_lt (d : Nat → Nat) (xs : List Nat) {j : Nat} (hj : j < xs.length) :
    scatterPos d xs j < xs.length :=
  Nat.lt_of_lt_of_le (scatterPos_lt_next d xs hj) (lows_le_length d _ xs)

theorem scatterPos_ge (d : Nat → Nat) (xs : List Nat) (j : Nat) :
    lows d (d (xs.getD j 0)) xs ≤ scatterPos d xs j := Nat.le_add_right _ _

/-- Two input positions with the same digit are written in input order. -/
theorem scatterPos_lt_of_lt (d : Nat → Nat) (xs : List Nat) {i j : Nat} (hij : i < j)
    (hj : j < xs.length) (hd : d (xs.getD i 0) = d (xs.getD j 0)) :
    scatterPos d xs i < scatterPos d xs j := by
  unfold scatterPos
  rw [hd]
  have h1 := cnt_take_succ d xs (Nat.lt_trans hij hj) (d (xs.getD j 0))
  rw [if_pos hd] at h1
  have h2 := cnt_take_mono d xs (show i + 1 ≤ j from hij) (d (xs.getD j 0))
  omega

theorem scatterPos_inj (d : Nat → Nat) (xs : List Nat) {i j : Nat} (hi : i < xs.length)
    (hj : j < xs.length) (h : scatterPos d xs i = scatterPos d xs j) : i = j := by
  by_contra hne
  rcases Nat.lt_trichotomy (d (xs.getD i 0)) (d (xs.getD j 0)) with hlt | heq | hgt
  · have h1 := scatterPos_lt_next d xs hi
    have h2 := scatterPos_ge d xs j
    have h3 := lows_mono d (show d (xs.getD i 0) + 1 ≤ d (xs.getD j 0) from hlt) xs
    omega
  · rcases Nat.lt_or_gt_of_ne hne with hlt | hgt
    · have := scatterPos_lt_of_lt d xs hlt hj heq
      omega
    · have := scatterPos_lt_of_lt d xs hgt hi heq.symm
      omega
  · have h1 := scatterPos_lt_next d xs hj
    have h2 := scatterPos_ge d xs i
    have h3 := lows_mono d (show d (xs.getD j 0) + 1 ≤ d (xs.getD i 0) from hgt) xs
    omega

/-! ### The three loops in closed form -/

theorem take_getD_mem {indices : List Nat} {N n : Nat} (hN : N ≤ indices.length) (hn : n < N) :
    (indices.take N).getD n 0 ∈ indices.take N := by
  have hl : n < (indices.take N).length := by rw [List.length_take]; omega
  rw [List.getD_eq_getElem?_getD, List.getElem?_eq_getElem hl]
  exact List.getElem_mem hl

theorem indices_get {indices : List Nat} {N n : Nat} (hN : N ≤ indices.length) (hn : n < N) :
    indices[n]? = some ((indices.take N).getD n 0) := by
  have hl : n < indices.length := by omega
  rw [List.getD_eq_getElem?_getD, List.getElem?_take_of_lt hn, List.getElem?_eq_getElem hl]
  rfl

theorem scat_length (d : Nat → Nat) (xs out : List Nat) (n : Nat) :
    (scat d xs out n).length = out.length := by
  induction n with
  | zero => rfl
  | succ n ih => simp [scat, ih]

theorem countBody_tbl {input indices : List Nat} {N : Nat} (off : Int) (hoff : 0 ≤ off ∧ off < 32)
    (hN : N ≤ indices.length) (hv : ∀ x ∈ indices.take N, x < input.length)
    (f : Nat → Nat) (rest : List Nat) {n : Nat} (hn : n < N) :
    countBody input indices off n (tbl f rest) =
      some (tbl (Function.update f (keyDigit input off.toNat ((indices.take N).getD n 0))
        ((f (keyDigit input off.toNat ((indices.take N).getD n 0)) + 1) % 2 ^ 32)) rest) := by
  unfold countBody
  rw [indices_get hN hn, Option.some_bind, bitPattern_eq off hoff (hv _ (take_getD_mem hN hn)),
    Option.some_bind, tbl_get f rest (keyDigit_lt _ _ _), Option.some_bind,
    store_tbl f rest (keyDigit_lt _ _ _)]

theorem countLoop_eq {input indices : List Nat} {N : Nat} (off : Int) (hoff : 0 ≤ off ∧ off < 32)
    (hN : N ≤ indices.length) (hv : ∀ x ∈ indices.take N, x < input.length)
    (h32 : N < 2 ^ 32) (rest : List Nat) (n : Nat) (hn : n ≤ N) :
    forLoop (countBody input indices off) n (tbl (fun _ => 0) rest) =
      some (tbl (fun b => cnt (keyDigit input off.toNat) b ((indices.take N).take n)) rest) := by
  induction n with
  | zero =>
    simp only [forLoop, List.take_zero]
    rfl
  | succ n ih =>
    have hxs : n < (indices.take N).length := by rw [List.length_take]; omega
    rw [forLoop, ih (by omega), Option.some_bind, countBody_tbl off hoff hN hv _ rest (by omega)]
    congr 1
    apply tbl_congr
    intro b _
    have h1 := cnt_take_succ (keyDigit input off.toNat) (indices.take N) hxs b
    have h2 := cnt_take_succ (keyDigit input off.toNat) (indices.take N) hxs
      (keyDigit input off.toNat ((indices.take N).getD n 0))
    have h3 := cnt_take_le (keyDigit input off.toNat) (indices.take N) (n + 1)
      (keyDigit input off.toNat ((indices.take N).getD n 0))
    have h4 : cnt (keyDigit input off.toNat) (keyDigit input off.toNat ((indices.take N).getD n 0))
        (indices.take N) ≤ (indices.take N).length := List.countP_le_length _
    rw [List.length_take] at h4
    rw [if_pos rfl] at h2
    rw [h1]
    by_cases hb : keyDigit input off.toNat ((indices.take N).getD n 0) = b
    · subst hb
      rw [Function.update_same, if_pos rfl, Nat.mod_eq_of_lt (by omega)]
    · rw [Function.update_noteq (Ne.symm hb), if_neg hb]
      rfl

theorem accumLoop_eq (d : Nat → Nat) (xs rest : List Nat) (h32 : xs.length < 2 ^ 32)
    (i : Nat) (hi : i ≤ 256) :
    forLoop accumBody i (tbl (fun b => cnt d b xs) rest, 0) =
      some (tbl (fun b => if b < i then lows d b xs else cnt d b xs) rest, lows d i xs) := by
  induction i with
  | zero =>
    simp only [forLoop, lows_zero]
    congr 2
  | succ i ih =>
    rw [forLoop, ih (by omega), Option.some_bind]
    unfold accumBody
    simp only
    rw [tbl_get _ rest (show i < 256 by omega), Option.some_bind,
      store_tbl _ rest (show i < 256 by omega), Option.map_some']
    have h1 := lows_add_cnt d i xs
    have h2 := lows_le_length d (i + 1) xs
    rw [if_neg (Nat.lt_irrefl i), h1, Nat.mod_eq_of_lt (by omega)]
    congr 2
    apply tbl_congr
    intro b _
    by_cases hb : b = i
    · subst hb
      rw [Function.update_same, if_pos (Nat.lt_succ_self _)]
    · rw [Function.update_noteq hb]
      by_cases hlt : b < i
      · rw [if_pos hlt, if_pos (by omega)]
      · rw [if_neg hlt, if_neg (by omega)]

theorem offsetsPhase_eq {input indices counts : List Nat} {N : Nat} (off : Int) (hoff : 0 ≤ off ∧ off < 32)
    (hN : N ≤ indices.length) (hv : ∀ x ∈ indices.take N, x < input.length)
    (h32 : N < 2 ^ 32) (hc : 256 ≤ counts.length) :
    offsetsPhase input indices counts N off =
      some (tbl (fun b => lows (keyDigit input off.toNat) b (indices.take N)) (counts.drop 256)) := by
  unfold offsetsPhase
  have hlen : (indices.take N).length = N := by rw [List.length_take]; omega
  rw [memsetCounts_eq hc, Option.some_bind, countLoop_eq off hoff hN hv h32 _ N (Nat.le_refl _),
    Option.some_bind, List.take_take, Nat.min_self,
    accumLoop_eq _ _ _ (by rw [hlen]; exact h32) 256 (Nat.le_refl _), Option.map_some']
  exact congrArg some (tbl_congr _ (fun b hb => by simp only [if_pos hb]))

theorem scatterLoop_eq {input indices : List Nat} {N : Nat} (off : Int) (hoff : 0 ≤ off ∧ off < 32)
    (hN : N ≤ indices.length) (hv : ∀ x ∈ indices.take N, x < input.length)
    (h32 : N < 2 ^ 32) (out rest : List Nat) (ho : N ≤ out.length) (n : Nat) (hn : n ≤ N) :
    forLoop (scatterBody input indices off) n
        (out, tbl (fun b => lows (keyDigit input off.toNat) b (indices.take N)) rest) =
      some (scat (keyDigit input off.toNat) (indices.take N) out n,
        tbl (fun b => lows (keyDigit input off.toNat) b (indices.take N) +
          cnt (keyDigit input off.toNat) b ((indices.take N).take n)) rest) := by
  have hlen : (indices.take N).length = N := by rw [List.length_take]; omega
  induction n with
  | zero =>
    simp only [forLoop, List.take_zero, scat]
    congr 2
  | succ n ih =>
    have hxs : n < (indices.take N).length := by omega
    rw [forLoop, ih (by omega), Option.some_bind]
    unfold scatterBody
    simp only
    rw [indices_get hN (show n < N by omega), Option.some_bind,
      bitPattern_eq off hoff (hv _ (take_getD_mem hN (show n < N by omega))), Option.some_bind,
      tbl_get _ rest (keyDigit_lt _ _ _), Option.some_bind,
      store_tbl _ rest (keyDigit_lt _ _ _), Option.some_bind]
    have hpos := scatterPos_lt (keyDigit input off.toNat) (indices.take N) hxs
    have hst : store (scat (keyDigit input off.toNat) (indices.take N) out n)
        (scatterPos (keyDigit input off.toNat) (indices.take N) n) ((indices.take N).getD n 0) =
        some (scat (keyDigit input off.toNat) (indices.take N) out (n + 1)) := by
      unfold store
      rw [if_pos (by rw [scat_length]; omega)]
      rfl
    have hst2 : lows (keyDigit input off.toNat) (keyDigit input off.toNat ((indices.take N).getD n 0))
        (indices.take N) + cnt (keyDigit input off.toNat)
          (keyDigit input off.toNat ((indices.take N).getD n 0)) ((indices.take N).take n) =
        scatterPos (keyDigit input off.toNat) (indices.take N) n := rfl
    rw [hst2, hst, Option.map_some']
    congr 2
    apply tbl_congr
    intro b _
    have h1 := cnt_take_succ (keyDigit input off.toNat) (indices.take N) hxs b
    rw [h1]
    by_cases hb : keyDigit input off.toNat ((indices.take N).getD n 0) = b
    · subst hb
      rw [Function.update_same, if_pos rfl, Nat.mod_eq_of_lt (by omega)]
      rfl
    · rw [Function.update_noteq (Ne.symm hb), if_neg hb]
      rfl

/-! ### The scattered buffer is the concatenation of the buckets -/

theorem scat_get_pos (d : Nat → Nat) (xs out : List Nat) (ho : xs.length ≤ out.length)
    (n : Nat) (hn : n ≤ xs.length) {j : Nat} (hj : j < n) :
    (scat d xs out n)[scatterPos d xs j]? = some (xs.getD j 0) := by
  induction n with
  | zero => omega
  | succ n ih =>
    have hnl : n < xs.length := by omega
    rw [scat, List.getElem?_set]
    by_cases hjn : j = n
    · subst hjn
      have hp := scatterPos_lt d xs hnl
      rw [if_pos rfl, if_pos (by rw [scat_length]; omega)]
    · have hne : scatterPos d xs n ≠ scatterPos d xs j := by
        intro h
        exact hjn (scatterPos_inj d xs (by omega) hnl h.symm)
      rw [if_neg hne]
      exact ih (by omega) (by omega)

theorem scat_get_ge (d : Nat → Nat) (xs out : List Nat) (n : Nat) (hn : n ≤ xs.length)
    {p : Nat} (hp : xs.length ≤ p) : (scat d xs out n)[p]? = out[p]? := by
  induction n with
  | zero => rfl
  | succ n ih =>
    have hnl : n < xs.length := by omega
    have hpos := scatterPos_lt d xs hnl
    rw [scat, List.getElem?_set, if_neg (by omega)]
    exact ih (by omega)

theorem bucketConcat_length (d : Nat → Nat) (xs : List Nat) (B : Nat) :
    (bucketConcat d xs B).length = lows d B xs := by
  induction B with
  | zero => rw [lows_zero]; rfl
  | succ B ih =>
    rw [bucketConcat, List.length_append, ih, ← lows_add_cnt]
    unfold cnt
    rw [List.countP_eq_length_filter]

theorem filter_get_mid (p : Nat → Bool) (l1 l2 : List Nat) (x : Nat) (hx : p x = true) :
    ((l1 ++ x :: l2).filter p)[l1.countP p]? = some x := by
  rw [List.filter_append, List.filter_cons_of_pos hx,
    List.getElem?_append_right (by rw [List.countP_eq_length_filter]),
    List.countP_eq_length_filter, Nat.sub_self]
  exact List.getElem?_cons_zero

theorem filter_get (d : Nat → Nat) (xs : List Nat) {j : Nat} (hj : j < xs.length) :
    (xs.filter (fun x => d x = d (xs.getD j 0)))[cnt d (d (xs.getD j 0)) (xs.take j)]? =
      some (xs.getD j 0) := by
  have hx : xs.getD j 0 = xs[j] := by
    rw [List.getD_eq_getElem?_getD, List.getElem?_eq_getElem hj]
    rfl
  have hsplit : xs.take j ++ xs[j] :: xs.drop (j + 1) = xs := by
    rw [← List.drop_eq_getElem_cons hj, List.take_append_drop]
  have h := filter_get_mid (fun x => decide (d x = d (xs.getD j 0))) (xs.take j)
    (xs.drop (j + 1)) xs[j] (by rw [hx]; simp)
  rw [hsplit] at h
  rw [hx] at h ⊢
  exact h

theorem bucketConcat_get (d : Nat → Nat) (xs : List Nat) {j : Nat} (hj : j < xs.length)
    (B : Nat) (hB : d (xs.getD j 0) < B) :
    (bucketConcat d xs B)[scatterPos d xs j]? = some (xs.getD j 0) := by
  induction B with
  | zero => omega
  | succ B ih =>
    rw [bucketConcat]
    by_cases hlt : d (xs.getD j 0) < B
    · have h1 := scatterPos_lt_next d xs hj
      have h2 := lows_mono d (show d (xs.getD j 0) + 1 ≤ B from hlt) xs
      rw [List.getElem?_append_left (by rw [bucketConcat_length]; omega)]
      exact ih hlt
    · have hB2 : d (xs.getD j 0) = B := by omega
      have h1 := scatterPos_ge d xs j
      rw [List.getElem?_append_right (by rw [bucketConcat_length, ← hB2]; exact h1),
        bucketConcat_length, ← hB2]
      have h3 : scatterPos d xs j - lows d (d (xs.getD j 0)) xs =
          cnt d (d (xs.getD j 0)) (xs.take j) := by
        unfold scatterPos
        omega
      rw [h3]
      exact filter_get d xs hj

theorem scatterPos_surj (d : Nat → Nat) (xs : List Nat) {p : Nat} (hp : p < xs.length) :
    ∃ j, j < xs.length ∧ scatterPos d xs j = p := by
  let f : Fin xs.length → Fin xs.length :=
    fun j => ⟨scatterPos d xs j.1, scatterPos_lt d xs j.2⟩
  have hinj : Function.Injective f := by
    intro a b hab
    have h : scatterPos d xs a.1 = scatterPos d xs b.1 := congrArg Fin.val hab
    exact Fin.ext (scatterPos_inj d xs a.2 b.2 h)
  obtain ⟨j, hj⟩ := (Finite.injective_iff_surjective.mp hinj) ⟨p, hp⟩
  exact ⟨j.1, j.2, congrArg Fin.val hj⟩

theorem scat_eq_bucketConcat (d : Nat → Nat) (xs out : List Nat) (ho : xs.length ≤ out.length)
    (B : Nat) (hd : ∀ x ∈ xs, d x < B) :
    scat d xs out xs.length = bucketConcat d xs B ++ out.drop xs.length := by
  have hlen : (bucketConcat d xs B).length = xs.length := by
    rw [bucketConcat_length, lows_eq_length d B xs hd]
  apply List.ext_getElem?
  intro p
  by_cases hp : p < xs.length
  · obtain ⟨j, hj, hjp⟩ := scatterPos_surj d xs hp
    have hmem : xs.getD j 0 ∈ xs := by
      rw [List.getD_eq_getElem?_getD, List.getElem?_eq_getElem hj]
      exact List.getElem_mem hj
    rw [List.getElem?_append_left (by omega), ← hjp,
      scat_get_pos d xs out ho xs.length (Nat.le_refl _) hj,
      bucketConcat_get d xs hj B (hd _ hmem)]
  · rw [scat_get_ge d xs out xs.length (Nat.le_refl _) (by omega),
      List.getElem?_append_right (by omega), hlen, List.getElem?_drop]
    congr 1
    omega

/-- Closed form of one pass: the buckets in digit order, each in input order, followed by the
untouched tail of the output buffer; the counts buffer ends on the bucket ends. -/
theorem radixSortPass_eq {input indices sortedIndices counts : List Nat} {N : Nat}
    {bitOffset : Int} (h32 : N < 2 ^ 32) (hN : N ≤ indices.length)
    (ho : N ≤ sortedIndices.length) (hc : 256 ≤ counts.length)
    (hoff : 0 ≤ bitOffset ∧ bitOffset < 32)
    (hv : ∀ x ∈ indices.take N, x < input.length) :
    radixSortPass input indices sortedIndices counts N bitOffset =
      some (bucketConcat (keyDigit input bitOffset.toNat) (indices.take N) 256 ++
              sortedIndices.drop N,
            tbl (fun b => lows (keyDigit input bitOffset.toNat) (b + 1) (indices.take N))
              (counts.drop 256)) := by
  have hlen : (indices.take N).length = N := by rw [List.length_take]; omega
  unfold radixSortPass scatterPhase
  rw [offsetsPhase_eq _ hoff hN hv h32 hc, Option.some_bind,
    scatterLoop_eq _ hoff hN hv h32 _ _ ho N (Nat.le_refl _), List.take_take, Nat.min_self]
  have h1 := scat_eq_bucketConcat (keyDigit input bitOffset.toNat) (indices.take N)
    sortedIndices (by omega) 256 (fun x _ => keyDigit_lt _ _ _)
  rw [hlen] at h1
  rw [h1]
  exact congrArg some (Prod.ext rfl (tbl_congr _ (fun b _ => lows_add_cnt _ _ _)))

/-! ### Order and multiset facts about the bucket concatenation -/

theorem mem_bucketConcat (d : Nat → Nat) (xs : List Nat) (B : Nat) {a : Nat}
    (h : a ∈ bucketConcat d xs B) : a ∈ xs ∧ d a < B := by
  induction B with
  | zero => simp [bucketConcat] at h
  | succ B ih =>
    rw [bucketConcat, List.mem_append] at h
    rcases h with h | h
    · exact ⟨(ih h).1, Nat.lt_succ_of_lt (ih h).2⟩
    · rw [List.mem_filter] at h
      have h2 : d a = B := by simpa using h.2
      exact ⟨h.1, by omega⟩

theorem count_bucketConcat (d : Nat → Nat) (xs : List Nat) (B a : Nat) :
    (bucketConcat d xs B).count a = if d a < B then xs.count a else 0 := by
  induction B with
  | zero => simp [bucketConcat]
  | succ B ih =>
    rw [bucketConcat, List.count_append, ih]
    by_cases h1 : d a < B
    · have h2 : a ∉ xs.filter (fun x => decide (d x = B)) := by
        rw [List.mem_filter]
        intro h
        have : d a = B := by simpa using h.2
        omega
      rw [if_pos h1, if_pos (by omega), List.count_eq_zero_of_not_mem h2]
      rfl
    · by_cases h2 : d a = B
      · rw [if_neg h1, if_pos (by omega), List.count_filter (by simpa using h2)]
        omega
      · have h3 : a ∉ xs.filter (fun x => decide (d x = B)) := by
          rw [List.mem_filter]
          intro h
          exact h2 (by simpa using h.2)
        rw [if_neg h1, if_neg (by omega), List.count_eq_zero_of_not_mem h3]

theorem bucketConcat_perm (d : Nat → Nat) (xs : List Nat) (B : Nat) (hd : ∀ x, d x < B) :
    (bucketConcat d xs B).Perm xs := by
  rw [List.perm_iff_count]
  intro a
  rw [count_bucketConcat, if_pos (hd a)]

/-- One stable pass on a list ordered by the low part `lo` orders it by `d * M + lo`. -/
theorem bucketConcat_pairwise (d lo : Nat → Nat) (M : Nat) (hlo : ∀ x, lo x < M)
    (xs : List Nat) (h : xs.Pairwise (fun a b => lo a ≤ lo b)) (B : Nat) :
    (bucketConcat d xs B).Pairwise (fun a b => d a * M + lo a ≤ d b * M + lo b) := by
  induction B with
  | zero => exact List.Pairwise.nil
  | succ B ih =>
    rw [bucketConcat, List.pairwise_append]
    refine ⟨ih, ?_, ?_⟩
    · have hsub : (xs.filter (fun x => decide (d x = B))).Pairwise (fun a b => lo a ≤ lo b) :=
        List.Pairwise.sublist (List.filter_sublist xs) h
      rw [List.pairwise_iff_forall_sublist] at hsub ⊢
      intro a b hab
      have ha : a ∈ xs.filter (fun x => decide (d x = B)) := hab.subset (by simp)
      have hb : b ∈ xs.filter (fun x => decide (d x = B)) := hab.subset (by simp)
      rw [List.mem_filter] at ha hb
      have ha2 : d a = B := by simpa using ha.2
      have hb2 : d b = B := by simpa using hb.2
      have := hsub hab
      rw [ha2, hb2]
      omega
    · intro a ha b hb
      have ha2 := (mem_bucketConcat d xs B ha).2
      rw [List.mem_filter] at hb
      have hb2 : d b = B := by simpa using hb.2
      have h1 := hlo a
      have h2 : (d a + 1) * M ≤ d b * M := Nat.mul_le_mul_right M (by omega)
      have h3 : (d a + 1) * M = d a * M + M := by ring
      omega

theorem keyDigit_eq (input : List Nat) (off x : Nat) :
    keyDigit input off x = input.getD x 0 / 2 ^ off % 256 := by
  unfold keyDigit
  have h : ∀ y : Nat, y &&& 0xff = y % 256 := fun y => Nat.and_pow_two_sub_one_eq_mod y 8
  rw [h, Nat.shiftRight_eq_div_pow]

theorem key_mod_split (k off : Nat) :
    k / 2 ^ off % 256 * 2 ^ off + k % 2 ^ off = k % 2 ^ (off + 8) := by
  have h := @Nat.mod_mul (2 ^ off) 256 k
  rw [pow_add]
  norm_num
  rw [h]
  ring

/-- One pass on digit `off` turns order by the low `off` bits into order by the low
`off + 8` bits. -/
theorem bucketConcat_sorted_step (input : List Nat) (off : Nat) (xs : List Nat)
    (h : xs.Pairwise (fun a b => input.getD a 0 % 2 ^ off ≤ input.getD b 0 % 2 ^ off)) :
    (bucketConcat (keyDigit input off) xs 256).Pairwise
      (fun a b => input.getD a 0 % 2 ^ (off + 8) ≤ input.getD b 0 % 2 ^ (off + 8)) := by
  have h1 := bucketConcat_pairwise (keyDigit input off) (fun x => input.getD x 0 % 2 ^ off)
    (2 ^ off) (fun x => Nat.mod_lt _ (by positivity)) xs h 256
  refine List.Pairwise.imp ?_ h1
  intro a b hab
  simp only [keyDigit_eq, key_mod_split] at hab
  exact hab

/-! ### Several passes -/

theorem bucketConcat_take {d : Nat → Nat} {xs tail : List Nat} {N : Nat}
    (hlen : xs.length = N) (hd : ∀ x, d x < 256) :
    (bucketConcat d xs 256 ++ tail).take N = bucketConcat d xs 256 := by
  have h : (bucketConcat d xs 256).length = N := by
    rw [bucketConcat_length, lows_eq_length d 256 xs (fun x _ => hd x), hlen]
  rw [List.take_append_of_le_length (by omega), List.take_of_length_le (by omega)]

theorem sortPasses_eq (input : List Nat) (N : Nat) (h32 : N < 2 ^ 32) (offs : List Int)
    (hoffs : ∀ o ∈ offs, 0 ≤ o ∧ o < 32) :
    ∀ indices buf counts : List Nat, N ≤ indices.length → N ≤ buf.length →
      256 ≤ counts.length → (∀ x ∈ indices.take N, x < input.length) →
      ∃ out buf2 counts2, sortPasses input N offs indices buf counts = some (out, buf2, counts2) ∧
        N ≤ out.length ∧ out.take N = purePasses input offs (indices.take N) := by
  induction offs with
  | nil =>
    intro indices buf counts hN _ _ _
    exact ⟨indices, buf, counts, rfl, hN, rfl⟩
  | cons o rest ih =>
    intro indices buf counts hN hb hc hv
    have hlen : (indices.take N).length = N := by rw [List.length_take]; omega
    have hpass := radixSortPass_eq h32 hN hb hc (hoffs o (List.mem_cons_self _ _)) hv
    have htake := @bucketConcat_take (keyDigit input o.toNat) (indices.take N)
      (buf.drop N) N hlen (fun x => keyDigit_lt _ _ _)
    have hvalid : ∀ x ∈ (bucketConcat (keyDigit input o.toNat) (indices.take N) 256 ++
        buf.drop N).take N, x < input.length := by
      intro x hx
      rw [htake] at hx
      exact hv x (mem_bucketConcat _ _ _ hx).1
    have hlen2 : N ≤ (bucketConcat (keyDigit input o.toNat) (indices.take N) 256 ++
        buf.drop N).length := by
      rw [List.length_append, bucketConcat_length,
        lows_eq_length _ 256 _ (fun x _ => keyDigit_lt _ _ _), hlen]
      omega
    obtain ⟨out, buf2, counts2, h1, h2, h3⟩ :=
      ih (fun o2 ho2 => hoffs o2 (List.mem_cons_of_mem _ ho2)) _ indices
        (tbl (fun b => lows (keyDigit input o.toNat) (b + 1) (indices.take N))
          (counts.drop 256))
        hlen2 hN (by rw [tbl_length]; omega) hvalid
    refine ⟨out, buf2, counts2, ?_, h2, ?_⟩
    · rw [sortPasses, hpass, Option.some_bind]
      exact h1
    · rw [h3, htake]
      rfl

theorem pairwise_take_getD {R : Nat → Nat → Prop} {out : List Nat} {N : Nat}
    (hlen : N ≤ out.length) (h : (out.take N).Pairwise R) {p q : Nat} (hpq : p < q)
    (hq : q < N) : R (out.getD p 0) (out.getD q 0) := by
  rw [List.pairwise_iff_getElem] at h
  have hl : (out.take N).length = N := by rw [List.length_take]; omega
  have := h p q (by omega) (by omega) hpq
  rw [List.getElem_take, List.getElem_take] at this
  rw [List.getD_eq_getElem?_getD, List.getD_eq_getElem?_getD,
    List.getElem?_eq_getElem (show p < out.length by omega),
    List.getElem?_eq_getElem (show q < out.length by omega)]
  exact this

theorem pairwise_mod_one (input xs : List Nat) :
    xs.Pairwise (fun a b => input.getD a 0 % 2 ^ 0 ≤ input.getD b 0 % 2 ^ 0) := by
  rw [List.pairwise_iff_forall_sublist]
  intro a b _
  simp [Nat.mod_one]

theorem getD_lt_of_forall {input : List Nat} {M : Nat} (hM : 0 < M) (h : ∀ k ∈ input, k < M)
    (x : Nat) : input.getD x 0 < M := by
  rw [List.getD_eq_getElem?_getD]
  by_cases hx : x < input.length
  · rw [List.getElem?_eq_getElem hx]
    exact h _ (List.getElem_mem hx)
  · rw [List.getElem?_eq_none (by omega)]
    exact hM

/-! ### Further facts on one pass -/

theorem scatterPhase_eq {input indices sortedIndices counts : List Nat} {N : Nat}
    {bitOffset : Int} (h32 : N < 2 ^ 32) (hN : N ≤ indices.length)
    (ho : N ≤ sortedIndices.length) (hc : 256 ≤ counts.length)
    (hoff : 0 ≤ bitOffset ∧ bitOffset < 32)
    (hv : ∀ x ∈ indices.take N, x < input.length) (n : Nat) (hn : n ≤ N) :
    scatterPhase input indices sortedIndices counts N bitOffset n =
      some (scat (keyDigit input bitOffset.toNat) (indices.take N) sortedIndices n,
        tbl (fun b => lows (keyDigit input bitOffset.toNat) b (indices.take N) +
          cnt (keyDigit input bitOffset.toNat) b ((indices.take N).take n))
          (counts.drop 256)) := by
  unfold scatterPhase
  rw [offsetsPhase_eq _ hoff hN hv h32 hc, Option.some_bind,
    scatterLoop_eq _ hoff hN hv h32 _ _ ho n hn]

theorem getD_take {indices : List Nat} {N n : Nat} (hn : n < N) :
    indices.getD n 0 = (indices.take N).getD n 0 := by
  rw [List.getD_eq_getElem?_getD, List.getD_eq_getElem?_getD, List.getElem?_take_of_lt hn]

theorem bucketConcat_eq_flatMap (d : Nat → Nat) (xs : List Nat) (B : Nat) :
    bucketConcat d xs B = (List.range B).flatMap fun b => xs.filter fun x => d x = b := by
  induction B with
  | zero => rfl
  | succ B ih =>
    rw [bucketConcat, ih, List.range_succ, List.flatMap_append, List.flatMap_singleton]

theorem bucketConcat_below (d : Nat → Nat) (xs : List Nat) (B : Nat)
    (h : ∀ x ∈ xs, B ≤ d x) : bucketConcat d xs B = [] := by
  induction B with
  | zero => rfl
  | succ B ih =>
    rw [bucketConcat, ih (fun x hx => Nat.le_of_succ_le (h x hx)), List.nil_append,
      List.filter_eq_nil_iff]
    intro x hx
    have := h x hx
    simp only [decide_eq_true_eq]
    omega

/-- When every element has the digit `b0`, the buckets up to any `B > b0` are the input. -/
theorem bucketConcat_const (d : Nat → Nat) (xs : List Nat) (b0 : Nat)
    (h : ∀ x ∈ xs, d x = b0) (B : Nat) (hB : b0 < B) : bucketConcat d xs B = xs := by
  induction B with
  | zero => omega
  | succ B ih =>
    rw [bucketConcat]
    by_cases hlt : b0 < B
    · rw [ih hlt]
      have : xs.filter (fun x => decide (d x = B)) = [] := by
        rw [List.filter_eq_nil_iff]
        intro x hx
        have := h x hx
        simp only [decide_eq_true_eq]
        omega
      rw [this, List.append_nil]
    · have hb : b0 = B := by omega
      rw [bucketConcat_below d xs B (fun x hx => by rw [h x hx]; omega), List.nil_append,
        List.filter_eq_self]
      intro x hx
      simp only [decide_eq_true_eq]
      rw [h x hx, hb]

theorem keyDigit_high_zero {input : List Nat} (hk : ∀ k ∈ input, k ≤ 0xFFFF) {off : Nat}
    (hoff : 16 ≤ off) (x : Nat) : keyDigit input off x = 0 := by
  rw [keyDigit_eq]
  have h1 : input.getD x 0 < 2 ^ 16 := by
    apply getD_lt_of_forall (by norm_num)
    intro k hk2
    have := hk k hk2
    norm_num at this ⊢
    omega
  have h2 : (2 : Nat) ^ 16 ≤ 2 ^ off := Nat.pow_le_pow_right (by norm_num) hoff
  rw [Nat.div_eq_of_lt (by omega)]

theorem getD_of_take_eq {out l : List Nat} {N p : Nat} (h : out.take N = l) (hp : p < N) :
    out.getD p 0 = l.getD p 0 := by
  rw [← h, getD_take hp]

/-! ## `calculateDepth` in closed form -/

theorem set_at_boundary {α : Type} (p l : List α) (v : α) (h : p.length < l.length) :
    (p ++ l.drop p.length).set p.length v = p ++ [v] ++ l.drop (p.length + 1) := by
  rw [List.set_append_right _ _ (Nat.le_refl _), Nat.sub_self, List.append_assoc]
  congr 1
  rw [List.drop_eq_getElem_cons h]
  rfl

theorem store_at_boundary (p l : List Nat) (v : Nat) (h : p.length < l.length) :
    store (p ++ l.drop p.length) p.length v = some (p ++ [v] ++ l.drop (p.length + 1)) := by
  unfold store
  rw [if_pos (by rw [List.length_append, List.length_drop]; omega), set_at_boundary p l v h]

theorem get_at_boundary {α : Type} (p l : List α) :
    (p ++ l.drop p.length)[p.length]? = l[p.length]? := by
  rw [List.getElem?_append_right (Nat.le_refl _), Nat.sub_self, List.getElem?_drop]
  rfl

theorem wrapUInt32_natCast {N : Nat} (h : N < 2 ^ 31) : wrapUInt32 (N : Int) = N := by
  unfold wrapUInt32
  omega

theorem rawDepth_eq (t : Target) {viewProj fBuffer : List F32} {n i : Nat}
    (hvp : 11 ≤ viewProj.length) (hfb : 3 * n ≤ fBuffer.length) (hi : i < n) :
    rawDepth t viewProj fBuffer i = some (rawAt t viewProj fBuffer i) := by
  have h0 : (3 * i + 0) % 2 ^ 32 < fBuffer.length :=
    Nat.lt_of_le_of_lt (Nat.mod_le _ _) (by omega)
  have h1 : (3 * i + 1) % 2 ^ 32 < fBuffer.length :=
    Nat.lt_of_le_of_lt (Nat.mod_le _ _) (by omega)
  have h2 : (3 * i + 2) % 2 ^ 32 < fBuffer.length :=
    Nat.lt_of_le_of_lt (Nat.mod_le _ _) (by omega)
  have g : ∀ (l : List F32) (k : Nat), k < l.length → l[k]? = some (l.getD k F32.nan) := by
    intro l k hk
    rw [List.getD_eq_getElem?_getD, List.getElem?_eq_getElem hk]
    rfl
  unfold rawDepth rawAt scaledDepth
  rw [g viewProj 2 (by omega), g viewProj 6 (by omega), g viewProj 10 (by omega),
    g fBuffer _ h0, g fBuffer _ h1, g fBuffer _ h2]
  rfl

theorem depthLoop_eq (t : Target) {viewProj fBuffer : List F32} {depthBuffer : List Nat}
    {N : Nat} (hvp : 11 ≤ viewProj.length) (hfb : 3 * N ≤ fBuffer.length)
    (hdb : N ≤ depthBuffer.length) (n : Nat) (hn : n ≤ N) :
    forLoop (depthBody t viewProj fBuffer) n
        (depthBuffer, 0x7fffffff, wrapInt32 0x80000000) =
      some ((List.range n).map (fun i => wrapUInt32 (rawAt t viewProj fBuffer i)) ++
          depthBuffer.drop n,
        minUpTo (rawAt t viewProj fBuffer) n, maxUpTo (rawAt t viewProj fBuffer) n) := by
  induction n with
  | zero => rfl
  | succ n ih =>
    have hlen : ((List.range n).map (fun i => wrapUInt32 (rawAt t viewProj fBuffer i))).length
        = n := by simp
    have hst := store_at_boundary
      ((List.range n).map (fun i => wrapUInt32 (rawAt t viewProj fBuffer i))) depthBuffer
      (wrapUInt32 (rawAt t viewProj fBuffer n)) (by rw [hlen]; omega)
    rw [hlen] at hst
    rw [forLoop, ih (by omega), Option.some_bind]
    unfold depthBody
    simp only
    rw [rawDepth_eq t hvp hfb (show n < N by omega), Option.some_bind, hst, Option.map_some',
      List.range_succ, List.map_append]
    rfl

theorem normLoop_eq (t : Target) (minDepth : Int) (dInv : F32) (l indices : List Nat)
    (n : Nat) (hl : n ≤ l.length) (hi : n ≤ indices.length) :
    forLoop (normBody t minDepth dInv) n (l, indices) =
      some ((l.take n).map (quantize t minDepth dInv) ++ l.drop n,
        List.range n ++ indices.drop n) := by
  induction n with
  | zero => rfl
  | succ n ih =>
    have hlen1 : ((l.take n).map (quantize t minDepth dInv)).length = n := by
      rw [List.length_map, List.length_take]; omega
    have hlen2 : (List.range n).length = n := List.length_range n
    have hget := get_at_boundary ((l.take n).map (quantize t minDepth dInv)) l
    have hst1 := store_at_boundary ((l.take n).map (quantize t minDepth dInv)) l
      (quantize t minDepth dInv l[n]) (by rw [hlen1]; omega)
    have hst2 := store_at_boundary (List.range n) indices n (by rw [hlen2]; omega)
    rw [hlen1] at hget hst1
    rw [hlen2] at hst2
    rw [forLoop, ih (by omega) (by omega), Option.some_bind]
    unfold normBody
    simp only
    rw [hget, List.getElem?_eq_getElem (show n < l.length by omega), Option.some_bind, hst1,
      Option.some_bind, hst2, Option.map_some', List.range_succ, List.take_succ,
      List.getElem?_eq_getElem (show n < l.length by omega), List.map_append]
    rfl

/-- Closed form of `calculateDepth` on buffers of the required sizes. -/
theorem calculateDepth_eq (t : Target) {viewProj fBuffer : List F32}
    {depthBuffer indices : List Nat} {N : Nat} (h31 : N < 2 ^ 31)
    (hvp : 11 ≤ viewProj.length) (hfb : 3 * N ≤ fBuffer.length)
    (hdb : N ≤ depthBuffer.length) (hidx : N ≤ indices.length) :
    calculateDepth t viewProj fBuffer depthBuffer indices (N : Int) =
      some ((List.range N).map (fun i =>
            quantize t (minUpTo (rawAt t viewProj fBuffer) N)
              (depthInv (minUpTo (rawAt t viewProj fBuffer) N)
                (maxUpTo (rawAt t viewProj fBuffer) N))
              (wrapUInt32 (rawAt t viewProj fBuffer i))) ++ depthBuffer.drop N,
        List.range N ++ indices.drop N) := by
  have hlen : ((List.range N).map
      (fun i => wrapUInt32 (rawAt t viewProj fBuffer i))).length = N := by simp
  unfold calculateDepth depthPhase
  rw [wrapUInt32_natCast h31, depthLoop_eq t hvp hfb hdb N (Nat.le_refl _), Option.some_bind]
  simp only
  rw [normLoop_eq t _ _ _ _ N (by rw [List.length_append, hlen]; omega) hidx,
    List.take_append_of_le_length (by omega), List.take_of_length_le (by omega),
    List.drop_append_of_le_length (by omega), List.drop_of_length_le (by omega),
    List.map_map]
  rfl

theorem toInt32_of_trunc (t : Target) {x : F32} {z : Int} (h : x.trunc = some z)
    (hz : -2 ^ 31 ≤ z ∧ z < 2 ^ 31) : toInt32 t x = z := by
  unfold toInt32
  rw [h]
  simp only
  rw [if_pos hz]

theorem toUInt32_of_trunc (t : Target) {x : F32} {z : Int} (h : x.trunc = some z)
    (hz : 0 ≤ z ∧ z < 2 ^ 32) : toUInt32 t x = z.toNat := by
  unfold toUInt32
  rw [h]
  simp only
  rw [if_pos hz]

/-! ## Rounding: the quotient and exponent chosen by `roundNE` -/

theorem bitsAux_zero (fuel : Nat) : bitsAux fuel 0 = 0 := by
  cases fuel <;> simp [bitsAux]

theorem bitsAux_spec (fuel : Nat) : ∀ n, n ≤ fuel →
    n < 2 ^ bitsAux fuel n ∧ (0 < n → 2 ^ bitsAux fuel n ≤ 2 * n) := by
  induction fuel with
  | zero =>
    intro n hn
    have : n = 0 := by omega
    subst this
    simp [bitsAux]
  | succ fuel ih =>
    intro n hn
    by_cases h0 : n = 0
    · subst h0
      simp [bitsAux]
    · have hdef : bitsAux (fuel + 1) n = bitsAux fuel (n / 2) + 1 := by
        simp [bitsAux, h0]
      have hhalf : n / 2 ≤ fuel := by omega
      obtain ⟨h1, h2⟩ := ih (n / 2) hhalf
      rw [hdef, pow_succ]
      constructor
      · omega
      · intro _
        by_cases h3 : n / 2 = 0
        · rw [h3, bitsAux_zero]
          omega
        · have := h2 (by omega)
          omega

theorem lt_two_pow_bits (n : Nat) : n < 2 ^ bits n := (bitsAux_spec n n (Nat.le_refl _)).1

theorem two_pow_bits_le (n : Nat) (hn : 0 < n) : 2 ^ bits n ≤ 2 * n :=
  (bitsAux_spec n n (Nat.le_refl _)).2 hn

/-- The quotient at the first candidate exponent is below `2^25`. -/
theorem scaledQuot_first_lt (n d : Nat) (hd : 0 < d) :
    scaledQuot n d (bits n + 125 - bits d) < 2 ^ 25 := by
  unfold scaledQuot
  rw [Nat.div_lt_iff_lt_mul (by positivity)]
  have h1 := lt_two_pow_bits n
  have h2 := two_pow_bits_le d hd
  have h3 : 2 ^ (bits n + 125) ≤ 2 ^ (bits n + 125 - bits d) * 2 ^ bits d := by
    rw [← pow_add]
    exact Nat.pow_le_pow_right (by norm_num) (by omega)
  calc n * 2 ^ 149 < 2 ^ bits n * 2 ^ 149 := Nat.mul_lt_mul_of_pos_right h1 (by positivity)
    _ = 2 ^ 24 * 2 ^ (bits n + 125) := by rw [← pow_add, ← pow_add]; congr 1; omega
    _ ≤ 2 ^ 24 * (2 ^ (bits n + 125 - bits d) * 2 ^ bits d) := Nat.mul_le_mul_left _ h3
    _ ≤ 2 ^ 24 * (2 ^ (bits n + 125 - bits d) * (2 * d)) :=
        Nat.mul_le_mul_left _ (Nat.mul_le_mul_left _ h2)
    _ = 2 ^ 25 * (d * 2 ^ (bits n + 125 - bits d)) := by ring

/-- Above the subnormal binade the quotient at the first candidate exponent is at least
`2^23`. -/
theorem scaledQuot_first_ge (n d : Nat) (hn : 0 < n) (hd : 0 < d)
    (hE : 0 < bits n + 125 - bits d) :
    2 ^ 23 ≤ scaledQuot n d (bits n + 125 - bits d) := by
  unfold scaledQuot
  rw [Nat.le_div_iff_mul_le (by positivity)]
  have h1 := lt_two_pow_bits d
  have h2 := two_pow_bits_le n hn
  have h3 : 2 ^ bits d * 2 ^ (bits n + 125 - bits d) = 2 ^ (bits n + 125) := by
    rw [← pow_add]
    congr 1
    omega
  calc 2 ^ 23 * (d * 2 ^ (bits n + 125 - bits d))
      ≤ 2 ^ 23 * (2 ^ bits d * 2 ^ (bits n + 125 - bits d)) :=
        Nat.mul_le_mul_left _ (Nat.mul_le_mul_right _ (Nat.le_of_lt h1))
    _ = 2 ^ bits n * 2 ^ 148 := by rw [h3, ← pow_add, ← pow_add]; congr 1; omega
    _ ≤ 2 * n * 2 ^ 148 := Nat.mul_le_mul_right _ h2
    _ = n * 2 ^ 149 := by ring

/-- The quotient at the chosen exponent has at most 24 bits, and exactly 24 above the
subnormal binade. -/
theorem ulpExp_spec (n d : Nat) (hn : 0 < n) (hd : 0 < d) :
    scaledQuot n d (ulpExp n d) < 2 ^ 24 ∧
      (ulpExp n d = 0 ∨ 2 ^ 23 ≤ scaledQuot n d (ulpExp n d)) := by
  have h1 := scaledQuot_first_lt n d hd
  unfold ulpExp
  simp only
  by_cases h : 2 ^ 24 ≤ scaledQuot n d (bits n + 125 - bits d)
  · rw [if_pos h]
    have hhalf : scaledQuot n d (bits n + 125 - bits d + 1) =
        scaledQuot n d (bits n + 125 - bits d) / 2 := by
      have hp : d * 2 ^ (bits n + 125 - bits d + 1) = d * 2 ^ (bits n + 125 - bits d) * 2 := by
        rw [pow_succ, Nat.mul_assoc]
      unfold scaledQuot
      rw [hp, ← Nat.div_div_eq_div_mul]
    rw [hhalf]
    omega
  · rw [if_neg h]
    refine ⟨by omega, ?_⟩
    by_cases hE : bits n + 125 - bits d = 0
    · exact Or.inl hE
    · exact Or.inr (scaledQuot_first_ge n d hn hd (by omega))

theorem roundNE_spec (neg : Bool) (n d : Nat) (hn : 0 < n) (hd : 0 < d) :
    ∃ E q Q, roundNE neg n d = pack neg Q E ∧ RoundSpec ((n : ℚ) * 2 ^ 149 / d) E q Q := by
  obtain ⟨hq, hnorm⟩ := ulpExp_spec n d hn hd
  have hden : 0 < d * 2 ^ ulpExp n d := by positivity
  have hdiv := Nat.div_add_mod (n * 2 ^ 149) (d * 2 ^ ulpExp n d)
  have hmod := Nat.mod_lt (n * 2 ^ 149) hden
  have hD : (0 : ℚ) < (d : ℚ) := by exact_mod_cast hd
  -- the division identity over the rationals
  have hcast : (d : ℚ) * 2 ^ ulpExp n d * (scaledQuot n d (ulpExp n d) : ℚ) +
      (scaledRem n d (ulpExp n d) : ℚ) = (n : ℚ) * 2 ^ 149 := by
    have := congrArg (fun k : Nat => (k : ℚ)) hdiv
    simp only [Nat.cast_add, Nat.cast_mul, Nat.cast_pow, Nat.cast_ofNat] at this
    exact this
  have hrem : (scaledRem n d (ulpExp n d) : ℚ) < (d : ℚ) * 2 ^ ulpExp n d := by
    have : scaledRem n d (ulpExp n d) < d * 2 ^ ulpExp n d := hmod
    exact_mod_cast this
  have hrem0 : (0 : ℚ) ≤ (scaledRem n d (ulpExp n d) : ℚ) := Nat.cast_nonneg _
  refine ⟨ulpExp n d, scaledQuot n d (ulpExp n d),
    roundQuot (scaledQuot n d (ulpExp n d)) (scaledRem n d (ulpExp n d)) (d * 2 ^ ulpExp n d),
    ?_, hq, hnorm, ?_, ?_, ?_, ?_⟩
  · unfold roundNE
    rw [if_neg (by omega)]
  · rw [le_div_iff₀ hD]
    linarith
  · rw [div_lt_iff₀ hD]
    linarith
  · unfold roundQuot
    split
    · exact Or.inr rfl
    · exact Or.inl rfl
  · have hiff1 : (d * 2 ^ ulpExp n d < 2 * scaledRem n d (ulpExp n d)) ↔
        ((scaledQuot n d (ulpExp n d) : ℚ) + 1 / 2) * 2 ^ ulpExp n d <
          (n : ℚ) * 2 ^ 149 / d := by
      rw [lt_div_iff₀ hD]
      constructor
      · intro h
        have h2 : (d : ℚ) * 2 ^ ulpExp n d < 2 * (scaledRem n d (ulpExp n d) : ℚ) := by
          exact_mod_cast h
        linarith
      · intro h
        have h2 : (d : ℚ) * 2 ^ ulpExp n d < 2 * (scaledRem n d (ulpExp n d) : ℚ) := by
          linarith
        exact_mod_cast h2
    have hiff2 : (d * 2 ^ ulpExp n d = 2 * scaledRem n d (ulpExp n d)) ↔
        ((scaledQuot n d (ulpExp n d) : ℚ) + 1 / 2) * 2 ^ ulpExp n d =
          (n : ℚ) * 2 ^ 149 / d := by
      rw [eq_div_iff (ne_of_gt hD)]
      constructor
      · intro h
        have h2 : (d : ℚ) * 2 ^ ulpExp n d = 2 * (scaledRem n d (ulpExp n d) : ℚ) := by
          exact_mod_cast h
        linarith
      · intro h
        have h2 : (d : ℚ) * 2 ^ ulpExp n d = 2 * (scaledRem n d (ulpExp n d) : ℚ) := by
          linarith
        exact_mod_cast h2
    rw [← hiff1, ← hiff2]
    unfold roundQuot
    split
    · rename_i h
      exact ⟨fun _ => h, fun _ => rfl⟩
    · rename_i h
      exact ⟨fun h2 => by omega, fun h2 => absurd h2 h⟩

theorem RoundSpec.Q_le {X : ℚ} {E q Q : Nat} (h : RoundSpec X E q Q) : Q ≤ 2 ^ 24 := by
  have := h.q_lt
  rcases h.cases with h1 | h1 <;> omega

/-- Rounding is monotone: the spec of the smaller value has the smaller result. -/
theorem round_compare {X Y : ℚ} {E q Q F k K : Nat} (hx : RoundSpec X E q Q)
    (hy : RoundSpec Y F k K) (hXY : X ≤ Y) :
    E ≤ F ∧ (E = F → Q ≤ K) ∧ (Q : ℚ) * 2 ^ E ≤ (K : ℚ) * 2 ^ F := by
  have hPE : (0 : ℚ) < 2 ^ E := by positivity
  have hPF : (0 : ℚ) < 2 ^ F := by positivity
  have hqQ : (Q : ℚ) ≤ (q : ℚ) + 1 := by
    rcases hx.cases with h | h
    · rw [h]
      linarith
    · rw [h]
      push_cast
      linarith
  have hkK : (k : ℚ) ≤ (K : ℚ) := by
    rcases hy.cases with h | h
    · rw [h]
    · rw [h]
      push_cast
      linarith
  have hq24 : (q : ℚ) + 1 ≤ 2 ^ 24 := by
    have := hx.q_lt
    exact_mod_cast this
  have hk24 : (k : ℚ) + 1 ≤ 2 ^ 24 := by
    have := hy.q_lt
    exact_mod_cast this
  have hEF : E ≤ F := by
    by_contra hlt
    have hlt : F + 1 ≤ E := by omega
    have hq23 : (2 : ℚ) ^ 23 ≤ (q : ℚ) := by
      rcases hx.normal with h | h
      · omega
      · exact_mod_cast h
    have hpow : (2 : ℚ) ^ F * 2 ≤ 2 ^ E := by
      rw [← pow_succ]
      exact pow_le_pow_right₀ (by norm_num) hlt
    have h1 : (2 : ℚ) ^ 23 * 2 ^ E ≤ (q : ℚ) * 2 ^ E :=
      mul_le_mul_of_nonneg_right hq23 (le_of_lt hPE)
    have h2 : ((k : ℚ) + 1) * 2 ^ F ≤ 2 ^ 24 * 2 ^ F :=
      mul_le_mul_of_nonneg_right hk24 (le_of_lt hPF)
    have h3 := hx.lower
    have h4 := hy.upper
    nlinarith
  have hsame : E = F → Q ≤ K := by
    intro hE
    subst hE
    -- same binade: compare the quotients, then the rounding decisions
    have hqk : q ≤ k := by
      by_contra hlt
      have hlt : (k : ℚ) + 1 ≤ (q : ℚ) := by
        have : k + 1 ≤ q := by omega
        exact_mod_cast this
      have h1 : ((k : ℚ) + 1) * 2 ^ E ≤ (q : ℚ) * 2 ^ E :=
        mul_le_mul_of_nonneg_right hlt (le_of_lt hPE)
      have h3 := hx.lower
      have h4 := hy.upper
      linarith
    rcases Nat.lt_or_ge q k with hlt | hge
    · have h1 := hx.cases
      have h2 := hy.cases
      omega
    · have heq : q = k := by omega
      subst heq
      rcases hx.cases with h1 | h1
      · rcases hy.cases with h2 | h2 <;> omega
      · have hup := hx.up_iff.mp h1
        have : K = q + 1 := by
          apply hy.up_iff.mpr
          rcases hup with h | ⟨h, hodd⟩
          · exact Or.inl (lt_of_lt_of_le h hXY)
          · rcases lt_or_eq_of_le hXY with hlt | heq
            · exact Or.inl (by rw [h]; exact hlt)
            · exact Or.inr ⟨by rw [h, heq], hodd⟩
        omega
  refine ⟨hEF, hsame, ?_⟩
  · rcases Nat.lt_or_ge E F with hlt | hge
    · have hk23 : (2 : ℚ) ^ 23 ≤ (k : ℚ) := by
        rcases hy.normal with h | h
        · omega
        · exact_mod_cast h
      have hpow : (2 : ℚ) ^ E * 2 ≤ 2 ^ F := by
        rw [← pow_succ]
        exact pow_le_pow_right₀ (by norm_num) hlt
      have h1 : (Q : ℚ) * 2 ^ E ≤ 2 ^ 24 * 2 ^ E :=
        mul_le_mul_of_nonneg_right (by linarith) (le_of_lt hPE)
      have h2 : (2 : ℚ) ^ 23 * 2 ^ F ≤ (K : ℚ) * 2 ^ F :=
        mul_le_mul_of_nonneg_right (by linarith) (le_of_lt hPF)
      nlinarith
    · have hE : E = F := by omega
      have hQK : (Q : ℚ) ≤ (K : ℚ) := by exact_mod_cast hsame hE
      subst hE
      exact mul_le_mul_of_nonneg_right hQK (le_of_lt hPE)

/-- A finite packed result has the value `Q * 2^E`, in units of `2^-149`. -/
theorem pack_fin {neg s : Bool} {Q E m F : Nat} (h : pack neg Q E = F32.fin s m F) :
    s = neg ∧ m * 2 ^ F = Q * 2 ^ E ∧ E ≤ 253 ∧ (Q = 2 ^ 24 → E ≤ 252) := by
  unfold pack at h
  by_cases hQ : Q = 2 ^ 24
  · rw [if_pos hQ] at h
    by_cases hE : 253 < E + 1
    · rw [if_pos hE] at h
      exact absurd h (by simp)
    · rw [if_neg hE] at h
      injection h with h1 h2 h3
      subst h1 h2 h3
      refine ⟨rfl, ?_, by omega, fun _ => by omega⟩
      rw [hQ, pow_succ]
      ring
  · rw [if_neg hQ] at h
    by_cases hE : 253 < E
    · rw [if_pos hE] at h
      exact absurd h (by simp)
    · rw [if_neg hE] at h
      injection h with h1 h2 h3
      subst h1 h2 h3
      exact ⟨rfl, rfl, by omega, fun h => absurd h hQ⟩

theorem pack_of_le (neg : Bool) {Q E : Nat} (hE : E ≤ 253) (hQ : Q = 2 ^ 24 → E ≤ 252) :
    ∃ m F, pack neg Q E = F32.fin neg m F ∧ m * 2 ^ F = Q * 2 ^ E := by
  unfold pack
  by_cases h : Q = 2 ^ 24
  · rw [if_pos h, if_neg (by have := hQ h; omega)]
    refine ⟨_, _, rfl, ?_⟩
    rw [h, pow_succ]
    ring
  · rw [if_neg h, if_neg (by omega)]
    exact ⟨_, _, rfl, rfl⟩

/-- Monotonicity of rounding on non-negative rationals: when `n / d ≤ k / c` and the larger
one rounds to a finite float, so does the smaller one, to a value that is not larger. -/
theorem roundNE_mono (neg b : Bool) {n d k c : Nat} (hd : 0 < d) (hc : 0 < c)
    (hle : n * c ≤ k * d) {s : Bool} {m F : Nat} (hk : roundNE b k c = F32.fin s m F) :
    ∃ m2 F2, roundNE neg n d = F32.fin neg m2 F2 ∧ m2 * 2 ^ F2 ≤ m * 2 ^ F := by
  by_cases hn : n = 0
  · subst hn
    exact ⟨0, 0, by simp [roundNE], by simp⟩
  · have hn : 0 < n := by omega
    have hk0 : 0 < k := by
      by_contra h0
      have : k = 0 := by omega
      subst this
      have : 0 < n * c := Nat.mul_pos hn hc
      omega
    obtain ⟨E, q, Q, hr, hs⟩ := roundNE_spec neg n d hn hd
    have hXY : (n : ℚ) * 2 ^ 149 / d ≤ (k : ℚ) * 2 ^ 149 / c := by
      have hD : (0 : ℚ) < (d : ℚ) := by exact_mod_cast hd
      have hC : (0 : ℚ) < (c : ℚ) := by exact_mod_cast hc
      rw [div_le_div_iff₀ hD hC]
      have : (n : ℚ) * c ≤ (k : ℚ) * d := by exact_mod_cast hle
      nlinarith [show (0 : ℚ) < 2 ^ 149 by positivity]
    obtain ⟨E2, q2, Q2, hr2, hs2⟩ := roundNE_spec b k c hk0 hc
    rw [hr2] at hk
    obtain ⟨_, hval, hE2, hQ2⟩ := pack_fin hk
    obtain ⟨h1, h2, h3⟩ := round_compare hs hs2 hXY
    have hfin : E ≤ 253 ∧ (Q = 2 ^ 24 → E ≤ 252) := by
      refine ⟨by omega, ?_⟩
      intro hQ
      rcases Nat.lt_or_ge E E2 with hlt | hge
      · omega
      · have hE : E = E2 := by omega
        have hle2 := h2 hE
        have := hs2.Q_le
        have : Q2 = 2 ^ 24 := by omega
        have := hQ2 this
        omega
    obtain ⟨m2, F2, hp, hv⟩ := pack_of_le neg hfin.1 hfin.2
    refine ⟨m2, F2, by rw [hr, hp], ?_⟩
    rw [hv, hval]
    have : ((Q * 2 ^ E : Nat) : ℚ) ≤ ((Q2 * 2 ^ E2 : Nat) : ℚ) := by
      push_cast
      exact h3
    exact_mod_cast this

/-- Relative error of rounding in the normal range: the result exceeds the exact value by at
most the factor `1 + 2^-24`. -/
theorem roundNE_le_rel (neg : Bool) {n d : Nat} (hn : 0 < n) (hd : 0 < d)
    (hnorm : d * 2 ^ 23 ≤ n * 2 ^ 149) {s : Bool} {m F : Nat}
    (h : roundNE neg n d = F32.fin s m F) :
    m * 2 ^ F * d * 2 ^ 24 ≤ n * 2 ^ 149 * (2 ^ 24 + 1) := by
  obtain ⟨E, q, Q, hr, hs⟩ := roundNE_spec neg n d hn hd
  rw [hr] at h
  obtain ⟨_, hval, _, _⟩ := pack_fin h
  rw [hval]
  have hD : (0 : ℚ) < (d : ℚ) := by exact_mod_cast hd
  have hP : (0 : ℚ) < 2 ^ E := by positivity
  have hX : (2 : ℚ) ^ 23 ≤ (n : ℚ) * 2 ^ 149 / d := by
    rw [le_div_iff₀ hD]
    have : ((d * 2 ^ 23 : Nat) : ℚ) ≤ ((n * 2 ^ 149 : Nat) : ℚ) := by exact_mod_cast hnorm
    push_cast at this
    linarith
  have hq23 : (2 : ℚ) ^ 23 ≤ (q : ℚ) := by
    rcases hs.normal with h0 | h0
    · subst h0
      have hu := hs.upper
      rw [pow_zero, mul_one] at hu
      have h1 : ((2 ^ 23 : Nat) : ℚ) < ((q + 1 : Nat) : ℚ) := by
        push_cast
        linarith
      have h2 : 2 ^ 23 < q + 1 := by exact_mod_cast h1
      have h3 : 2 ^ 23 ≤ q := by omega
      exact_mod_cast h3
    · exact_mod_cast h0
  have hnear : (Q : ℚ) * 2 ^ E ≤ (n : ℚ) * 2 ^ 149 / d + 2 ^ E / 2 := by
    rcases hs.cases with h1 | h1
    · rw [h1]
      have := hs.lower
      linarith
    · have hup := hs.up_iff.mp h1
      rw [h1]
      push_cast
      rcases hup with h2 | ⟨h2, _⟩ <;> linarith
  have hulp : (2 : ℚ) ^ 23 * 2 ^ E ≤ (n : ℚ) * 2 ^ 149 / d := by
    have h1 : (2 : ℚ) ^ 23 * 2 ^ E ≤ (q : ℚ) * 2 ^ E :=
      mul_le_mul_of_nonneg_right hq23 (le_of_lt hP)
    have := hs.lower
    linarith
  have hfinal : (Q : ℚ) * 2 ^ E * 2 ^ 24 ≤ (n : ℚ) * 2 ^ 149 / d * (2 ^ 24 + 1) := by
    generalize (n : ℚ) * 2 ^ 149 / d = X at hnear hulp ⊢
    generalize (Q : ℚ) * 2 ^ E = A at hnear ⊢
    generalize (2 : ℚ) ^ E = P at hnear hulp ⊢
    norm_num at hulp ⊢
    linarith
  have hmul : (Q : ℚ) * 2 ^ E * d * 2 ^ 24 ≤ (n : ℚ) * 2 ^ 149 * (2 ^ 24 + 1) := by
    have h1 : (n : ℚ) * 2 ^ 149 / d * d = (n : ℚ) * 2 ^ 149 := by
      field_simp
    have h2 := mul_le_mul_of_nonneg_right hfinal (le_of_lt hD)
    calc (Q : ℚ) * 2 ^ E * d * 2 ^ 24 = (Q : ℚ) * 2 ^ E * 2 ^ 24 * d := by ring
      _ ≤ (n : ℚ) * 2 ^ 149 / d * (2 ^ 24 + 1) * d := h2
      _ = (n : ℚ) * 2 ^ 149 / d * d * (2 ^ 24 + 1) := by ring
      _ = (n : ℚ) * 2 ^ 149 * (2 ^ 24 + 1) := by rw [h1]
  have : ((Q * 2 ^ E * d * 2 ^ 24 : Nat) : ℚ) ≤ ((n * 2 ^ 149 * (2 ^ 24 + 1) : Nat) : ℚ) := by
    simp only [Nat.cast_mul, Nat.cast_pow, Nat.cast_ofNat, Nat.cast_add, Nat.cast_one]
    exact hmul
  exact Nat.cast_le.mp this

/-! ## Signs and the quantisation chain -/

theorem pack_signed (neg : Bool) (Q E : Nat) : F32.Signed neg (pack neg Q E) := by
  unfold pack
  split
  · split
    · exact Or.inl rfl
    · exact Or.inr ⟨_, _, rfl⟩
  · split
    · exact Or.inl rfl
    · exact Or.inr ⟨_, _, rfl⟩

theorem roundNE_signed (neg : Bool) (n d : Nat) : F32.Signed neg (roundNE neg n d) := by
  unfold roundNE
  split
  · exact Or.inr ⟨_, _, rfl⟩
  · exact pack_signed _ _ _

theorem ofInt_natCast (n : Nat) : F32.ofInt (n : Int) = roundNE false n 1 := by
  unfold F32.ofInt
  have h : decide ((n : Int) < 0) = false := by
    rw [decide_eq_false_iff_not]
    omega
  rw [h, Int.natAbs_ofNat]

theorem ofInt_neg {z : Int} (hz : z < 0) : F32.ofInt z = roundNE true z.natAbs 1 := by
  unfold F32.ofInt
  have h : decide (z < 0) = true := by
    rw [decide_eq_true_iff]
    exact hz
  rw [h]

theorem div_one_signed {s : Bool} {x : F32} (hx : F32.Signed s x) :
    F32.Signed s (F32.div F32.one x) := by
  rcases hx with hx | ⟨m, E, hx⟩
  · subst hx
    exact Or.inr ⟨0, 0, by simp [F32.div, F32.one]⟩
  · subst hx
    unfold F32.div F32.one
    simp only
    by_cases hm : m = 0
    · rw [if_pos hm, if_neg (by norm_num)]
      exact Or.inl (by simp)
    · rw [if_neg hm]
      have := roundNE_signed (xor false s) (2 ^ 23 * 2 ^ 126) (m * 2 ^ E)
      simpa using this

theorem mul_signed {a b : Bool} {x y : F32} (hx : F32.Signed a x) (hy : F32.Signed b y) :
    F32.mul x y = F32.nan ∨ F32.Signed (xor a b) (F32.mul x y) := by
  rcases hx with hx | ⟨m, E, hx⟩ <;> rcases hy with hy | ⟨k, F, hy⟩ <;> subst hx <;> subst hy
  · exact Or.inr (Or.inl rfl)
  · unfold F32.mul
    by_cases hk : k = 0
    · exact Or.inl (by simp [hk])
    · exact Or.inr (Or.inl (by simp [hk]))
  · unfold F32.mul
    by_cases hm : m = 0
    · exact Or.inl (by simp [hm])
    · exact Or.inr (Or.inl (by simp [hm]))
  · exact Or.inr (roundNE_signed _ _ _)

theorem mul_nan_left (y : F32) : F32.mul F32.nan y = F32.nan := by
  cases y <;> rfl

theorem trunc_fin_true (m E : Nat) :
    (F32.fin true m E).trunc = some (-((m * 2 ^ E / 2 ^ 149 : Nat) : Int)) := by
  unfold F32.trunc
  simp only [if_true]
  congr 1
  generalize ((m * 2 ^ E / 2 ^ 149 : Nat) : Int) = z
  omega

theorem trunc_fin_false (m E : Nat) :
    (F32.fin false m E).trunc = some ((m * 2 ^ E / 2 ^ 149 : Nat) : Int) := by
  unfold F32.trunc
  simp only [Bool.false_eq_true, if_false]
  congr 1
  generalize ((m * 2 ^ E / 2 ^ 149 : Nat) : Int) = z
  omega

/-- A NaN or a float with the sign bit set converts to `0` or to whatever the target yields
outside the range of `uint32_t`. -/
theorem toUInt32_nonpos (t : Target) {x : F32} (hx : x = F32.nan ∨ F32.Signed true x) :
    toUInt32 t x = 0 ∨ toUInt32 t x = t.f2u x % 2 ^ 32 := by
  rcases hx with hx | hx | ⟨m, E, hx⟩ <;> subst hx
  · exact Or.inr rfl
  · exact Or.inr rfl
  · unfold toUInt32
    rw [trunc_fin_true]
    simp only
    generalize m * 2 ^ E / 2 ^ 149 = k
    by_cases hk : k = 0
    · subst hk
      left
      simp
    · right
      rw [if_neg (by omega)]

theorem toUInt32_no_trunc (t : Target) {x : F32} (hx : x = F32.nan ∨ x = F32.inf false) :
    toUInt32 t x = t.f2u x % 2 ^ 32 := by
  rcases hx with hx | hx <;> subst hx <;> rfl

set_option maxRecDepth 20000 in
theorem roundNE_consts :
    roundNE false (2 ^ 31) 1 = F32.fin false (2 ^ 23) 157 ∧
    roundNE false 1 1 = F32.fin false (2 ^ 23) 126 ∧
    roundNE false (2 ^ 24 + 1) (2 ^ 24) = F32.fin false (2 ^ 23) 126 ∧
    roundNE false 65535 1 = F32.fin false 16776960 141 ∧
    F32.ofInt 0xffff = F32.fin false 16776960 141 := by
  refine ⟨?_, ?_, ?_, ?_, ?_⟩ <;> decide

/-- The float chain of line 32 on a positive range `r < 2^31` and an offset `u ≤ r`: the
product is a finite non-negative float of value at most 65535. -/
theorem quantize_chain (r u : Nat) (hr1 : 1 ≤ r) (hr : r < 2 ^ 31) (hu : u ≤ r) :
    ∃ m F, F32.mul (F32.mul (F32.ofInt (u : Int)) (F32.div F32.one (F32.ofInt (r : Int))))
        (F32.ofInt 0xffff) = F32.fin false m F ∧ m * 2 ^ F ≤ 65535 * 2 ^ 149 := by
  obtain ⟨c1, c2, c3, c4, c5⟩ := roundNE_consts
  have e1 : 2 ^ 23 * 2 ^ 126 = 2 ^ 149 := by norm_num
  have e2 : 2 ^ 23 * 2 ^ 157 = 2 ^ 149 * 2 ^ 31 := by norm_num
  have e3 : 16776960 * 2 ^ 141 = 65535 * 2 ^ 149 := by norm_num
  -- the range and the offset as floats
  obtain ⟨mR, ER, hR, hRle⟩ := roundNE_mono false false (n := r) (d := 1) (k := 2 ^ 31)
    (c := 1) Nat.one_pos Nat.one_pos (by omega) c1
  obtain ⟨m1, F1, h1, h1le⟩ := roundNE_mono false false (n := 1) (d := 1) (k := r)
    (c := 1) Nat.one_pos Nat.one_pos (by omega) hR
  rw [c2] at h1
  injection h1 with _ h1a h1b
  subst h1a h1b
  obtain ⟨mU, EU, hU, hUle⟩ := roundNE_mono false false (n := u) (d := 1) (k := r)
    (c := 1) Nat.one_pos Nat.one_pos (by omega) hR
  rw [e1] at h1le
  rw [e2] at hRle
  have hvR : 0 < mR * 2 ^ ER := Nat.lt_of_lt_of_le (by positivity) h1le
  have hmR : mR ≠ 0 := by
    intro h
    rw [h, Nat.zero_mul] at hvR
    exact Nat.lt_irrefl 0 hvR
  -- the reciprocal
  have hdiv : F32.div F32.one (F32.fin false mR ER) =
      roundNE false (2 ^ 23 * 2 ^ 126) (mR * 2 ^ ER) := by
    unfold F32.div F32.one
    simp only
    rw [if_neg hmR]
    rfl
  rw [e1] at hdiv
  obtain ⟨mI, EI, hI, hIle⟩ := roundNE_mono false false (n := 2 ^ 149) (d := mR * 2 ^ ER)
    (k := 1) (c := 1) hvR Nat.one_pos (by rw [Nat.mul_one, Nat.one_mul]; exact h1le) c2
  rw [e1] at hIle
  have hrel := roundNE_le_rel false (n := 2 ^ 149) (d := mR * 2 ^ ER) (by positivity) hvR
    (by
      calc mR * 2 ^ ER * 2 ^ 23 ≤ 2 ^ 149 * 2 ^ 31 * 2 ^ 23 := Nat.mul_le_mul_right _ hRle
        _ ≤ 2 ^ 149 * 2 ^ 149 := by norm_num) hI
  -- the first product
  have hmul1 : F32.mul (F32.fin false mU EU) (F32.fin false mI EI) =
      roundNE false (mU * 2 ^ EU * (mI * 2 ^ EI)) (2 ^ 149 * 2 ^ 149) := rfl
  obtain ⟨mP, EP, hP, hPle⟩ := roundNE_mono false false (n := mU * 2 ^ EU * (mI * 2 ^ EI))
    (d := 2 ^ 149 * 2 ^ 149) (k := 2 ^ 24 + 1) (c := 2 ^ 24) (by positivity) (by positivity)
    (by
      calc mU * 2 ^ EU * (mI * 2 ^ EI) * 2 ^ 24
          ≤ mR * 2 ^ ER * (mI * 2 ^ EI) * 2 ^ 24 :=
            Nat.mul_le_mul_right _ (Nat.mul_le_mul_right _ hUle)
        _ = mI * 2 ^ EI * (mR * 2 ^ ER) * 2 ^ 24 := by ring
        _ ≤ 2 ^ 149 * 2 ^ 149 * (2 ^ 24 + 1) := hrel
        _ = (2 ^ 24 + 1) * (2 ^ 149 * 2 ^ 149) := by ring) c3
  rw [e1] at hPle
  -- the second product
  have hmul2 : F32.mul (F32.fin false mP EP) (F32.fin false 16776960 141) =
      roundNE false (mP * 2 ^ EP * (16776960 * 2 ^ 141)) (2 ^ 149 * 2 ^ 149) := rfl
  obtain ⟨mQ, EQ, hQ, hQle⟩ := roundNE_mono false false
    (n := mP * 2 ^ EP * (16776960 * 2 ^ 141)) (d := 2 ^ 149 * 2 ^ 149) (k := 65535) (c := 1)
    (by positivity) Nat.one_pos
    (by
      calc mP * 2 ^ EP * (16776960 * 2 ^ 141) * 1
          = mP * 2 ^ EP * (65535 * 2 ^ 149) := by rw [Nat.mul_one, e3]
        _ ≤ 2 ^ 149 * (65535 * 2 ^ 149) := Nat.mul_le_mul_right _ hPle
        _ = 65535 * (2 ^ 149 * 2 ^ 149) := by ring) c4
  rw [e3] at hQle
  refine ⟨mQ, EQ, ?_, hQle⟩
  rw [ofInt_natCast, ofInt_natCast, hU, hR, hdiv, hI, hmul1, hP, c5, hmul2, hQ]

/-! ## Raw depths, their minimum and maximum -/

theorem wrapInt32_range (z : Int) : -2 ^ 31 ≤ wrapInt32 z ∧ wrapInt32 z < 2 ^ 31 := by
  unfold wrapInt32
  omega

theorem toInt32_range (t : Target) (x : F32) : -2 ^ 31 ≤ toInt32 t x ∧ toInt32 t x < 2 ^ 31 := by
  unfold toInt32
  split
  · split
    · assumption
    · exact wrapInt32_range _
  · exact wrapInt32_range _

theorem minUpTo_le (raw : Nat → Int) (n : Nat) {i : Nat} (hi : i < n) :
    minUpTo raw n ≤ raw i := by
  induction n with
  | zero => omega
  | succ n ih =>
    rw [minUpTo]
    by_cases hin : i = n
    · subst hin
      split <;> omega
    · have := ih (by omega)
      split <;> omega

theorem le_maxUpTo (raw : Nat → Int) (n : Nat) {i : Nat} (hi : i < n) :
    raw i ≤ maxUpTo raw n := by
  induction n with
  | zero => omega
  | succ n ih =>
    rw [maxUpTo]
    by_cases hin : i = n
    · subst hin
      split <;> omega
    · have := ih (by omega)
      split <;> omega

/-- The unsigned subtraction of line 32 recovers the offset of a raw key from the minimum. -/
theorem offset_eq {a mn : Int} (ha : -2 ^ 31 ≤ a ∧ a < 2 ^ 31)
    (hm : -2 ^ 31 ≤ mn ∧ mn < 2 ^ 31) (hle : mn ≤ a) :
    wrapUInt32 ((wrapUInt32 a : Int) - (wrapUInt32 mn : Int)) = (a - mn).toNat := by
  unfold wrapUInt32
  omega

theorem toUInt32_fin_false (t : Target) {m F : Nat} (h : m * 2 ^ F ≤ 65535 * 2 ^ 149) :
    toUInt32 t (F32.fin false m F) ≤ 0xFFFF := by
  have hk : m * 2 ^ F / 2 ^ 149 ≤ 65535 := by
    rw [Nat.div_le_iff_le_mul_add_pred (by positivity)]
    omega
  unfold toUInt32
  rw [trunc_fin_false]
  simp only
  generalize m * 2 ^ F / 2 ^ 149 = k at hk
  rw [if_pos (by omega)]
  omega

/-- The key of line 32 when the range is positive and fits `int32_t`. -/
theorem quantize_le (t : Target) {a mn mx : Int} (ha : -2 ^ 31 ≤ a ∧ a < 2 ^ 31)
    (hm : -2 ^ 31 ≤ mn ∧ mn < 2 ^ 31) (h1 : mn ≤ a) (h2 : a ≤ mx) (hpos : 0 < mx - mn)
    (hfit : mx - mn < 2 ^ 31) :
    quantize t mn (depthInv mn mx) (wrapUInt32 a) ≤ 0xFFFF := by
  have hw : wrapInt32 (mx - mn) = ((mx - mn).toNat : Int) := by
    unfold wrapInt32
    omega
  obtain ⟨m, F, hq, hle⟩ := quantize_chain (mx - mn).toNat (a - mn).toNat (by omega)
    (by omega) (by omega)
  unfold quantize depthInv
  rw [offset_eq ha hm h1, hw, hq]
  exact toUInt32_fin_false t hle

/-- The key of line 32 when the `int32_t` difference `maxDepth - minDepth` is not positive:
`0`, or the target's result outside the range of `uint32_t`. -/
theorem quantize_nonpos (t : Target) (mn mx : Int) (d : Nat)
    (hr : wrapInt32 (mx - mn) ≤ 0) :
    quantize t mn (depthInv mn mx) d = 0 ∨
      ∃ x, quantize t mn (depthInv mn mx) d = t.f2u x % 2 ^ 32 := by
  obtain ⟨_, _, _, _, c5⟩ := roundNE_consts
  have hC : F32.Signed false (F32.ofInt 0xffff) := Or.inr ⟨_, _, c5⟩
  have hU : F32.Signed false
      (F32.ofInt ((wrapUInt32 ((d : Int) - (wrapUInt32 mn : Int)) : Nat) : Int)) := by
    rw [ofInt_natCast]
    exact roundNE_signed _ _ _
  unfold quantize depthInv
  generalize F32.ofInt ((wrapUInt32 ((d : Int) - (wrapUInt32 mn : Int)) : Nat) : Int) = U at hU
  rcases lt_or_eq_of_le hr with hneg | hzero
  · -- negative divisor: every factor keeps the sign bit of the reciprocal
    have hI : F32.Signed true (F32.div F32.one (F32.ofInt (wrapInt32 (mx - mn)))) := by
      apply div_one_signed
      rw [ofInt_neg hneg]
      exact roundNE_signed _ _ _
    generalize F32.div F32.one (F32.ofInt (wrapInt32 (mx - mn))) = I at hI
    have hQ : F32.mul (F32.mul U I) (F32.ofInt 0xffff) = F32.nan ∨
        F32.Signed true (F32.mul (F32.mul U I) (F32.ofInt 0xffff)) := by
      rcases mul_signed hU hI with hP | hP
      · rw [hP, mul_nan_left]
        exact Or.inl rfl
      · exact mul_signed hP hC
    rcases toUInt32_nonpos t hQ with h | h
    · exact Or.inl h
    · exact Or.inr ⟨_, h⟩
  · -- zero divisor: the reciprocal is +infinity
    have hI : F32.div F32.one (F32.ofInt (wrapInt32 (mx - mn))) = F32.inf false := by
      rw [hzero]
      decide
    rw [hI]
    have hP : F32.mul U (F32.inf false) = F32.nan ∨ F32.mul U (F32.inf false) = F32.inf false := by
      rcases hU with hU | ⟨m, E, hU⟩ <;> subst hU
      · exact Or.inr rfl
      · unfold F32.mul
        by_cases hm : m = 0
        · exact Or.inl (by simp [hm])
        · exact Or.inr (by simp [hm])
    have hQ : F32.mul (F32.mul U (F32.inf false)) (F32.ofInt 0xffff) = F32.nan ∨
        F32.mul (F32.mul U (F32.inf false)) (F32.ofInt 0xffff) = F32.inf false := by
      rcases hP with hP | hP <;> rw [hP, c5]
      · exact Or.inl rfl
      · exact Or.inr (by decide)
    exact Or.inr ⟨_, toUInt32_no_trunc t hQ⟩

theorem quantize_eq_keyProduct (t : Target) (mn : Int) (dInv : F32) (d : Nat) :
    quantize t mn dInv d = toUInt32 t (keyProduct mn dInv d) := rfl

/-- The product of line 32 when the `int32_t` difference `maxDepth - minDepth` is not
positive: a NaN, `+infinity`, or a float with the sign bit set. -/
theorem keyProduct_nonpos (mn mx : Int) (d : Nat) (hr : wrapInt32 (mx - mn) ≤ 0) :
    keyProduct mn (depthInv mn mx) d = F32.nan ∨
      keyProduct mn (depthInv mn mx) d = F32.inf false ∨
      F32.Signed true (keyProduct mn (depthInv mn mx) d) := by
  obtain ⟨_, _, _, _, c5⟩ := roundNE_consts
  have hC : F32.Signed false (F32.ofInt 0xffff) := Or.inr ⟨_, _, c5⟩
  have hU : F32.Signed false
      (F32.ofInt ((wrapUInt32 ((d : Int) - (wrapUInt32 mn : Int)) : Nat) : Int)) := by
    rw [ofInt_natCast]
    exact roundNE_signed _ _ _
  unfold keyProduct depthInv
  generalize F32.ofInt ((wrapUInt32 ((d : Int) - (wrapUInt32 mn : Int)) : Nat) : Int) = U at hU
  rcases lt_or_eq_of_le hr with hneg | hzero
  · have hI : F32.Signed true (F32.div F32.one (F32.ofInt (wrapInt32 (mx - mn)))) := by
      apply div_one_signed
      rw [ofInt_neg hneg]
      exact roundNE_signed _ _ _
    generalize F32.div F32.one (F32.ofInt (wrapInt32 (mx - mn))) = I at hI
    rcases mul_signed hU hI with hP | hP
    · rw [hP, mul_nan_left]
      exact Or.inl rfl
    · rcases mul_signed hP hC with hQ | hQ
      · exact Or.inl hQ
      · exact Or.inr (Or.inr hQ)
  · have hI : F32.div F32.one (F32.ofInt (wrapInt32 (mx - mn))) = F32.inf false := by
      rw [hzero]
      decide
    rw [hI]
    have hP : F32.mul U (F32.inf false) = F32.nan ∨ F32.mul U (F32.inf false) = F32.inf false := by
      rcases hU with hU | ⟨m, E, hU⟩ <;> subst hU
      · exact Or.inr rfl
      · unfold F32.mul
        by_cases hm : m = 0
        · exact Or.inl (by simp [hm])
        · exact Or.inr (by simp [hm])
    rcases hP with hP | hP <;> rw [hP, c5]
    · exact Or.inl rfl
    · exact Or.inr (Or.inl (by decide))

theorem toUInt32_exceptional (t : Target) {x : F32}
    (hx : x = F32.nan ∨ x = F32.inf false ∨ F32.Signed true x) :
    toUInt32 t x = 0 ∨ toUInt32 t x = t.f2u x % 2 ^ 32 := by
  rcases hx with h | h | h
  · exact Or.inr (toUInt32_no_trunc t (Or.inl h))
  · exact Or.inr (toUInt32_no_trunc t (Or.inr h))
  · exact toUInt32_nonpos t (Or.inr h)

/-- The float chain of line 32 is monotone in the offset: for offsets `u ≤ v ≤ r` of a
positive range `r < 2^31` both products are finite and non-negative, the one of `u` is not
larger than the one of `v`, and that one is at most 65535. -/
theorem quantize_chain_mono (r u v : Nat) (hr1 : 1 ≤ r) (hr : r < 2 ^ 31) (huv : u ≤ v)
    (hv : v ≤ r) :
    ∃ m F k G,
      F32.mul (F32.mul (F32.ofInt (u : Int)) (F32.div F32.one (F32.ofInt (r : Int))))
        (F32.ofInt 0xffff) = F32.fin false m F ∧
      F32.mul (F32.mul (F32.ofInt (v : Int)) (F32.div F32.one (F32.ofInt (r : Int))))
        (F32.ofInt 0xffff) = F32.fin false k G ∧
      m * 2 ^ F ≤ k * 2 ^ G ∧ k * 2 ^ G ≤ 65535 * 2 ^ 149 := by
  obtain ⟨c1, c2, c3, c4, c5⟩ := roundNE_consts
  have e1 : 2 ^ 23 * 2 ^ 126 = 2 ^ 149 := by norm_num
  have e2 : 2 ^ 23 * 2 ^ 157 = 2 ^ 149 * 2 ^ 31 := by norm_num
  have e3 : 16776960 * 2 ^ 141 = 65535 * 2 ^ 149 := by norm_num
  -- the range and the two offsets as floats
  obtain ⟨mR, ER, hR, hRle⟩ := roundNE_mono false false (n := r) (d := 1) (k := 2 ^ 31)
    (c := 1) Nat.one_pos Nat.one_pos (by omega) c1
  obtain ⟨m1, F1, h1, h1le⟩ := roundNE_mono false false (n := 1) (d := 1) (k := r)
    (c := 1) Nat.one_pos Nat.one_pos (by omega) hR
  rw [c2] at h1
  injection h1 with _ h1a h1b
  subst h1a h1b
  obtain ⟨mV, EV, hV, hVle⟩ := roundNE_mono false false (n := v) (d := 1) (k := r)
    (c := 1) Nat.one_pos Nat.one_pos (by omega) hR
  obtain ⟨mU, EU, hU, hUle⟩ := roundNE_mono false false (n := u) (d := 1) (k := v)
    (c := 1) Nat.one_pos Nat.one_pos (by omega) hV
  rw [e1] at h1le
  rw [e2] at hRle
  have hvR : 0 < mR * 2 ^ ER := Nat.lt_of_lt_of_le (by positivity) h1le
  have hmR : mR ≠ 0 := by
    intro h
    rw [h, Nat.zero_mul] at hvR
    exact Nat.lt_irrefl 0 hvR
  -- the reciprocal
  have hdiv : F32.div F32.one (F32.fin false mR ER) =
      roundNE false (2 ^ 23 * 2 ^ 126) (mR * 2 ^ ER) := by
    unfold F32.div F32.one
    simp only
    rw [if_neg hmR]
    rfl
  rw [e1] at hdiv
  obtain ⟨mI, EI, hI, hIle⟩ := roundNE_mono false false (n := 2 ^ 149) (d := mR * 2 ^ ER)
    (k := 1) (c := 1) hvR Nat.one_pos (by rw [Nat.mul_one, Nat.one_mul]; exact h1le) c2
  have hrel := roundNE_le_rel false (n := 2 ^ 149) (d := mR * 2 ^ ER) (by positivity) hvR
    (by
      calc mR * 2 ^ ER * 2 ^ 23 ≤ 2 ^ 149 * 2 ^ 31 * 2 ^ 23 := Nat.mul_le_mul_right _ hRle
        _ ≤ 2 ^ 149 * 2 ^ 149 := by norm_num) hI
  -- the first products
  have hmulV : F32.mul (F32.fin false mV EV) (F32.fin false mI EI) =
      roundNE false (mV * 2 ^ EV * (mI * 2 ^ EI)) (2 ^ 149 * 2 ^ 149) := rfl
  have hmulU : F32.mul (F32.fin false mU EU) (F32.fin false mI EI) =
      roundNE false (mU * 2 ^ EU * (mI * 2 ^ EI)) (2 ^ 149 * 2 ^ 149) := rfl
  obtain ⟨mP, EP, hP, hPle⟩ := roundNE_mono false false (n := mV * 2 ^ EV * (mI * 2 ^ EI))
    (d := 2 ^ 149 * 2 ^ 149) (k := 2 ^ 24 + 1) (c := 2 ^ 24) (by positivity) (by positivity)
    (by
      calc mV * 2 ^ EV * (mI * 2 ^ EI) * 2 ^ 24
          ≤ mR * 2 ^ ER * (mI * 2 ^ EI) * 2 ^ 24 :=
            Nat.mul_le_mul_right _ (Nat.mul_le_mul_right _ hVle)
        _ = mI * 2 ^ EI * (mR * 2 ^ ER) * 2 ^ 24 := by ring
        _ ≤ 2 ^ 149 * 2 ^ 149 * (2 ^ 24 + 1) := hrel
        _ = (2 ^ 24 + 1) * (2 ^ 149 * 2 ^ 149) := by ring) c3
  obtain ⟨mP2, EP2, hP2, hP2le⟩ := roundNE_mono false false
    (n := mU * 2 ^ EU * (mI * 2 ^ EI)) (d := 2 ^ 149 * 2 ^ 149)
    (k := mV * 2 ^ EV * (mI * 2 ^ EI)) (c := 2 ^ 149 * 2 ^ 149) (by positivity) (by positivity)
    (Nat.mul_le_mul_right _ (Nat.mul_le_mul_right _ hUle)) hP
  rw [e1] at hPle
  -- the second products
  have hmul2V : F32.mul (F32.fin false mP EP) (F32.fin false 16776960 141) =
      roundNE false (mP * 2 ^ EP * (16776960 * 2 ^ 141)) (2 ^ 149 * 2 ^ 149) := rfl
  have hmul2U : F32.mul (F32.fin false mP2 EP2) (F32.fin false 16776960 141) =
      roundNE false (mP2 * 2 ^ EP2 * (16776960 * 2 ^ 141)) (2 ^ 149 * 2 ^ 149) := rfl
  obtain ⟨mQ, EQ, hQ, hQle⟩ := roundNE_mono false false
    (n := mP * 2 ^ EP * (16776960 * 2 ^ 141)) (d := 2 ^ 149 * 2 ^ 149) (k := 65535) (c := 1)
    (by positivity) Nat.one_pos
    (by
      calc mP * 2 ^ EP * (16776960 * 2 ^ 141) * 1
          = mP * 2 ^ EP * (65535 * 2 ^ 149) := by rw [Nat.mul_one, e3]
        _ ≤ 2 ^ 149 * (65535 * 2 ^ 149) := Nat.mul_le_mul_right _ hPle
        _ = 65535 * (2 ^ 149 * 2 ^ 149) := by ring) c4
  obtain ⟨mQ2, EQ2, hQ2, hQ2le⟩ := roundNE_mono false false
    (n := mP2 * 2 ^ EP2 * (16776960 * 2 ^ 141)) (d := 2 ^ 149 * 2 ^ 149)
    (k := mP * 2 ^ EP * (16776960 * 2 ^ 141)) (c := 2 ^ 149 * 2 ^ 149) (by positivity)
    (by positivity) (Nat.mul_le_mul_right _ (Nat.mul_le_mul_right _ hP2le)) hQ
  rw [e3] at hQle
  refine ⟨mQ2, EQ2, mQ, EQ, ?_, ?_, hQ2le, hQle⟩
  · rw [ofInt_natCast, ofInt_natCast, hU, hR, hdiv, hI, hmulU, hP2, c5, hmul2U, hQ2]
  · rw [ofInt_natCast, ofInt_natCast, hV, hR, hdiv, hI, hmulV, hP, c5, hmul2V, hQ]

theorem toUInt32_fin_false_eq (t : Target) {m F : Nat} (h : m * 2 ^ F ≤ 65535 * 2 ^ 149) :
    toUInt32 t (F32.fin false m F) = m * 2 ^ F / 2 ^ 149 := by
  have hk : m * 2 ^ F / 2 ^ 149 ≤ 65535 := by
    rw [Nat.div_le_iff_le_mul_add_pred (by positivity)]
    omega
  unfold toUInt32
  rw [trunc_fin_false]
  simp only
  generalize m * 2 ^ F / 2 ^ 149 = k at hk
  rw [if_pos (by omega)]
  omega

/-- The key of line 32 is monotone in the raw key when the range is positive and fits
`int32_t`. -/
theorem quantize_mono (t : Target) {a b mn mx : Int} (ha : -2 ^ 31 ≤ a ∧ a < 2 ^ 31)
    (hb : -2 ^ 31 ≤ b ∧ b < 2 ^ 31) (hm : -2 ^ 31 ≤ mn ∧ mn < 2 ^ 31) (h1 : mn ≤ a)
    (hab : a ≤ b) (h2 : b ≤ mx) (hpos : 0 < mx - mn) (hfit : mx - mn < 2 ^ 31) :
    quantize t mn (depthInv mn mx) (wrapUInt32 a) ≤
      quantize t mn (depthInv mn mx) (wrapUInt32 b) := by
  have hw : wrapInt32 (mx - mn) = ((mx - mn).toNat : Int) := by
    unfold wrapInt32
    omega
  obtain ⟨m, F, k, G, hqa, hqb, hle, hbound⟩ := quantize_chain_mono (mx - mn).toNat
    (a - mn).toNat (b - mn).toNat (by omega) (by omega) (by omega) (by omega)
  unfold quantize depthInv
  rw [offset_eq ha hm h1, offset_eq hb hm (by omega), hw, hqa, hqb,
    toUInt32_fin_false_eq t (Nat.le_trans hle hbound), toUInt32_fin_false_eq t hbound]
  exact Nat.div_le_div_right hle

/-! ## Claims about `radixSortPass` -/

/-- C1: for every key buffer, every bit offset in {0, 8, 16, 24}, every initial content of the
counts buffer and of the output buffer, and every `indices` whose first `N` values are valid
positions of the key buffer, one `radixSortPass` returns and the first `N` cells of its output
are a permutation of the first `N` cells of `indices`; in particular a bijection on `0..N-1`
stays a bijection on `0..N-1`. -/
theorem radixSortPass_permutation (input indices sortedIndices counts : List Nat) (N : Nat)
    (bitOffset : Int) (h32 : N < 2 ^ 32) (hN : N ≤ indices.length)
    (ho : N ≤ sortedIndices.length) (hc : 256 ≤ counts.length)
    (hoff : bitOffset = 0 ∨ bitOffset = 8 ∨ bitOffset = 16 ∨ bitOffset = 24)
    (hv : ∀ x ∈ indices.take N, x < input.length) :
    ∃ out counts2, radixSortPass input indices sortedIndices counts N bitOffset =
        some (out, counts2) ∧
      (out.take N).Perm (indices.take N) ∧
      ((indices.take N).Perm (List.range N) → (out.take N).Perm (List.range N)) := by
  have hlen : (indices.take N).length = N := by rw [List.length_take]; omega
  have hperm : ((bucketConcat (keyDigit input bitOffset.toNat) (indices.take N) 256 ++
      sortedIndices.drop N).take N).Perm (indices.take N) := by
    rw [bucketConcat_take hlen (fun x => keyDigit_lt _ _ _)]
    exact bucketConcat_perm _ _ 256 (fun x => keyDigit_lt _ _ _)
  exact ⟨_, _, radixSortPass_eq h32 hN ho hc (by omega) hv, hperm,
    fun h => hperm.trans h⟩

theorem radixSortPass_permutation_witness :
    (3 < 2 ^ 32 ∧ 3 ≤ [2, 0, 1].length ∧ 3 ≤ [9, 9, 9].length ∧
      256 ≤ (List.replicate 256 7).length) ∧
    ∃ out counts2, radixSortPass [65535, 0, 32767] [2, 0, 1] [9, 9, 9] (List.replicate 256 7) 3 8 =
        some (out, counts2) ∧
      (out.take 3).Perm ([2, 0, 1].take 3) ∧
      (([2, 0, 1].take 3).Perm (List.range 3) → (out.take 3).Perm (List.range 3)) :=
  ⟨⟨by norm_num, by simp, by simp, by rw [List.length_replicate]⟩,
   radixSortPass_permutation [65535, 0, 32767] [2, 0, 1] [9, 9, 9] (List.replicate 256 7) 3 8
    (by norm_num) (by simp) (by simp) (by rw [List.length_replicate]) (by simp) (by simp)⟩

/-- C2: `radixSortPass` is stable. For input positions `i < j < N` whose digits are equal, the
position the scatter loop reads from `counts` in iteration `i` is strictly below the one it
reads in iteration `j`, and the output holds `indices[i]` and `indices[j]` at these two
positions when the pass returns. -/
theorem radixSortPass_stable (input indices sortedIndices counts : List Nat) (N : Nat)
    (bitOffset : Int) (h32 : N < 2 ^ 32) (hN : N ≤ indices.length)
    (ho : N ≤ sortedIndices.length) (hc : 256 ≤ counts.length)
    (hoff : bitOffset = 0 ∨ bitOffset = 8 ∨ bitOffset = 16 ∨ bitOffset = 24)
    (hv : ∀ x ∈ indices.take N, x < input.length)
    (i j : Nat) (hij : i < j) (hj : j < N)
    (hd : keyDigit input bitOffset.toNat (indices.getD i 0) =
      keyDigit input bitOffset.toNat (indices.getD j 0)) :
    ∃ si ci sj cj out counts2 pi pj,
      scatterPhase input indices sortedIndices counts N bitOffset i = some (si, ci) ∧
      scatterPhase input indices sortedIndices counts N bitOffset j = some (sj, cj) ∧
      ci[keyDigit input bitOffset.toNat (indices.getD i 0)]? = some pi ∧
      cj[keyDigit input bitOffset.toNat (indices.getD j 0)]? = some pj ∧
      radixSortPass input indices sortedIndices counts N bitOffset = some (out, counts2) ∧
      out[pi]? = indices[i]? ∧ out[pj]? = indices[j]? ∧ pi < pj := by
  have hlen : (indices.take N).length = N := by rw [List.length_take]; omega
  have hgd : ∀ n, n < N → indices.getD n 0 = (indices.take N).getD n 0 := by
    intro n hn
    rw [List.getD_eq_getElem?_getD, List.getD_eq_getElem?_getD, List.getElem?_take_of_lt hn]
  have hphase : ∀ n, n ≤ N →
      scatterPhase input indices sortedIndices counts N bitOffset n =
        some (scat (keyDigit input bitOffset.toNat) (indices.take N) sortedIndices n,
          tbl (fun b => lows (keyDigit input bitOffset.toNat) b (indices.take N) +
            cnt (keyDigit input bitOffset.toNat) b ((indices.take N).take n))
            (counts.drop 256)) := by
    intro n hn
    unfold scatterPhase
    rw [offsetsPhase_eq _ (by omega) hN hv h32 hc, Option.some_bind,
      scatterLoop_eq _ (by omega) hN hv h32 _ _ ho n hn]
  have hout : ∀ n, n < N →
      (bucketConcat (keyDigit input bitOffset.toNat) (indices.take N) 256 ++
        sortedIndices.drop N)[scatterPos (keyDigit input bitOffset.toNat)
          (indices.take N) n]? = indices[n]? := by
    intro n hn
    have hp := scatterPos_lt (keyDigit input bitOffset.toNat) (indices.take N)
      (show n < (indices.take N).length by omega)
    rw [List.getElem?_append_left (by
        rw [bucketConcat_length, lows_eq_length _ 256 _ (fun x _ => keyDigit_lt _ _ _)]
        exact hp),
      bucketConcat_get _ _ (by omega) 256 (keyDigit_lt _ _ _), indices_get hN hn]
  refine ⟨_, _, _, _, _, _, scatterPos (keyDigit input bitOffset.toNat) (indices.take N) i,
    scatterPos (keyDigit input bitOffset.toNat) (indices.take N) j,
    hphase i (by omega), hphase j (by omega), ?_, ?_,
    radixSortPass_eq h32 hN ho hc (by omega) hv, hout i (by omega), hout j hj, ?_⟩
  · rw [tbl_get _ _ (keyDigit_lt _ _ _), hgd i (by omega)]
    rfl
  · rw [tbl_get _ _ (keyDigit_lt _ _ _), hgd j hj]
    rfl
  · apply scatterPos_lt_of_lt _ _ hij (by omega)
    rw [← hgd i (by omega), ← hgd j hj]
    exact hd

theorem radixSortPass_stable_witness :
    (3 < 2 ^ 32 ∧ 3 ≤ [2, 0, 1].length ∧ 3 ≤ [9, 9, 9].length ∧
      256 ≤ (List.replicate 256 7).length ∧ (0 : Nat) < 1 ∧ 1 < 3) ∧
    ∃ si ci sj cj out counts2 pi pj,
      scatterPhase [65535, 0, 32767] [2, 0, 1] [9, 9, 9] (List.replicate 256 7) 3
        0 0 = some (si, ci) ∧
      scatterPhase [65535, 0, 32767] [2, 0, 1] [9, 9, 9] (List.replicate 256 7) 3
        0 1 = some (sj, cj) ∧
      ci[keyDigit [65535, 0, 32767] (0 : Int).toNat ([2, 0, 1].getD 0 0)]? = some pi ∧
      cj[keyDigit [65535, 0, 32767] (0 : Int).toNat ([2, 0, 1].getD 1 0)]? = some pj ∧
      radixSortPass [65535, 0, 32767] [2, 0, 1] [9, 9, 9] (List.replicate 256 7) 3 0 =
        some (out, counts2) ∧
      out[pi]? = [2, 0, 1][0]? ∧ out[pj]? = [2, 0, 1][1]? ∧ pi < pj :=
  ⟨⟨by norm_num, by simp, by simp, by rw [List.length_replicate], by norm_num, by norm_num⟩,
   radixSortPass_stable [65535, 0, 32767] [2, 0, 1] [9, 9, 9] (List.replicate 256 7) 3 0
    (by norm_num) (by simp) (by simp) (by rw [List.length_replicate]) (by simp) (by simp) 0 1 (by norm_num)
    (by norm_num) (by decide)⟩

/-- C3: after one `radixSortPass` on a valid input the output is sorted by the selected digit:
for all positions `p < q < N` the digit of the key of `out[p]` is at most that of `out[q]`. -/
theorem radixSortPass_sorted_by_digit (input indices sortedIndices counts : List Nat) (N : Nat)
    (bitOffset : Int) (h32 : N < 2 ^ 32) (hN : N ≤ indices.length)
    (ho : N ≤ sortedIndices.length) (hc : 256 ≤ counts.length)
    (hoff : bitOffset = 0 ∨ bitOffset = 8 ∨ bitOffset = 16 ∨ bitOffset = 24)
    (hv : ∀ x ∈ indices.take N, x < input.length) :
    ∃ out counts2, radixSortPass input indices sortedIndices counts N bitOffset =
        some (out, counts2) ∧
      ∀ p q, p < q → q < N →
        keyDigit input bitOffset.toNat (out.getD p 0) ≤
          keyDigit input bitOffset.toNat (out.getD q 0) := by
  have hlen : (indices.take N).length = N := by rw [List.length_take]; omega
  refine ⟨_, _, radixSortPass_eq h32 hN ho hc (by omega) hv, ?_⟩
  intro p q hpq hq
  have hpw := bucketConcat_pairwise (keyDigit input bitOffset.toNat) (fun _ => 0) 1
    (fun _ => Nat.zero_lt_one) (indices.take N)
    (List.pairwise_iff_forall_sublist.mpr (fun _ => Nat.le_refl _)) 256
  have hlen2 : N ≤ (bucketConcat (keyDigit input bitOffset.toNat) (indices.take N) 256 ++
      sortedIndices.drop N).length := by
    rw [List.length_append, bucketConcat_length,
      lows_eq_length _ 256 _ (fun x _ => keyDigit_lt _ _ _), hlen]
    omega
  rw [← bucketConcat_take hlen (fun x => keyDigit_lt _ _ _)] at hpw
  have := pairwise_take_getD hlen2 hpw hpq hq
  simpa using this

theorem radixSortPass_sorted_by_digit_witness :
    (3 < 2 ^ 32 ∧ 3 ≤ [2, 0, 1].length ∧ 3 ≤ [9, 9, 9].length ∧
      256 ≤ (List.replicate 256 7).length) ∧
    ∃ out counts2, radixSortPass [65535, 0, 32767] [2, 0, 1] [9, 9, 9] (List.replicate 256 7) 3 8 =
        some (out, counts2) ∧
      ∀ p q, p < q → q < 3 →
        keyDigit [65535, 0, 32767] (8 : Int).toNat (out.getD p 0) ≤
          keyDigit [65535, 0, 32767] (8 : Int).toNat (out.getD q 0) :=
  ⟨⟨by norm_num, by simp, by simp, by rw [List.length_replicate]⟩,
   radixSortPass_sorted_by_digit [65535, 0, 32767] [2, 0, 1] [9, 9, 9] (List.replicate 256 7)
    3 8 (by norm_num) (by simp) (by simp) (by rw [List.length_replicate]) (by simp) (by simp)⟩

theorem perm_range_valid {indices input : List Nat} {N : Nat} (hin : input.length = N)
    (hperm : indices.Perm (List.range N)) : ∀ x ∈ indices.take N, x < input.length := by
  intro x hx
  have h1 : x ∈ indices := List.mem_of_mem_take hx
  have h2 : x ∈ List.range N := hperm.subset h1
  rw [hin]
  exact List.mem_range.mp h2

/-- C4: for every buffer of `N` unsigned 32-bit keys and every starting permutation of
`0..N-1`, four passes with bit offsets 0, 8, 16, 24 on ping-ponged buffers return, and the
final output lists the keys in ascending order: `input[out[p]] ≤ input[out[p+1]]` for every
adjacent pair of positions below `N`. -/
theorem four_passes_sort_32bit_keys (input indices buf counts : List Nat) (N : Nat)
    (h32 : N < 2 ^ 32) (hin : input.length = N) (hkeys : ∀ k ∈ input, k < 2 ^ 32)
    (hperm : indices.Perm (List.range N)) (hbuf : buf.length = N)
    (hc : counts.length = 256) :
    ∃ out buf2 counts2,
      sortPasses input N [0, 8, 16, 24] indices buf counts = some (out, buf2, counts2) ∧
      ∀ p, p + 1 < N → input.getD (out.getD p 0) 0 ≤ input.getD (out.getD (p + 1) 0) 0 := by
  have hlen : N ≤ indices.length := by rw [hperm.length_eq, List.length_range]
  obtain ⟨out, buf2, counts2, h1, h2, h3⟩ := sortPasses_eq input N h32 [0, 8, 16, 24]
    (by simp) indices buf counts hlen (by omega) (by omega) (perm_range_valid hin hperm)
  refine ⟨out, buf2, counts2, h1, ?_⟩
  intro p hp
  have hpw : (out.take N).Pairwise
      (fun a b => input.getD a 0 % 2 ^ 32 ≤ input.getD b 0 % 2 ^ 32) := by
    rw [h3]
    exact bucketConcat_sorted_step input 24 _ (bucketConcat_sorted_step input 16 _
      (bucketConcat_sorted_step input 8 _ (bucketConcat_sorted_step input 0 _
        (pairwise_mod_one input _))))
  have := pairwise_take_getD h2 hpw (Nat.lt_succ_self p) hp
  rwa [Nat.mod_eq_of_lt (getD_lt_of_forall (by norm_num) hkeys _),
    Nat.mod_eq_of_lt (getD_lt_of_forall (by norm_num) hkeys _)] at this

theorem four_passes_sort_32bit_keys_witness :
    (3 < 2 ^ 32 ∧ [70000, 5, 4000000000].length = 3 ∧
      (∀ k ∈ [70000, 5, 4000000000], k < 2 ^ 32) ∧ [2, 0, 1].Perm (List.range 3) ∧
      [9, 9, 9].length = 3 ∧ (List.replicate 256 7).length = 256) ∧
    ∃ out buf2 counts2,
      sortPasses [70000, 5, 4000000000] 3 [0, 8, 16, 24] [2, 0, 1] [9, 9, 9]
        (List.replicate 256 7) = some (out, buf2, counts2) ∧
      ∀ p, p + 1 < 3 → [70000, 5, 4000000000].getD (out.getD p 0) 0 ≤
        [70000, 5, 4000000000].getD (out.getD (p + 1) 0) 0 :=
  ⟨⟨by norm_num, rfl, by simp, by decide, rfl, by rw [List.length_replicate]⟩,
   four_passes_sort_32bit_keys [70000, 5, 4000000000] [2, 0, 1] [9, 9, 9]
    (List.replicate 256 7) 3 (by norm_num) rfl (by simp) (by decide) rfl
    (by rw [List.length_replicate])⟩

/-- C5: two passes suffice for 16-bit keys. For every buffer of `N` keys all in `[0, 0xFFFF]`
and every starting permutation of `0..N-1`, the pass with bit offset 0 followed by the pass
with bit offset 8 on the first pass's output return, and the final output lists the keys in
ascending order. -/
theorem two_passes_sort_16bit_keys (input indices buf counts : List Nat) (N : Nat)
    (h32 : N < 2 ^ 32) (hin : input.length = N) (hkeys : ∀ k ∈ input, k ≤ 0xFFFF)
    (hperm : indices.Perm (List.range N)) (hbuf : buf.length = N)
    (hc : counts.length = 256) :
    ∃ out buf2 counts2,
      sortPasses input N [0, 8] indices buf counts = some (out, buf2, counts2) ∧
      ∀ p, p + 1 < N → input.getD (out.getD p 0) 0 ≤ input.getD (out.getD (p + 1) 0) 0 := by
  have hlen : N ≤ indices.length := by rw [hperm.length_eq, List.length_range]
  obtain ⟨out, buf2, counts2, h1, h2, h3⟩ := sortPasses_eq input N h32 [0, 8]
    (by simp) indices buf counts hlen (by omega) (by omega) (perm_range_valid hin hperm)
  refine ⟨out, buf2, counts2, h1, ?_⟩
  intro p hp
  have hpw : (out.take N).Pairwise
      (fun a b => input.getD a 0 % 2 ^ 16 ≤ input.getD b 0 % 2 ^ 16) := by
    rw [h3]
    exact bucketConcat_sorted_step input 8 _ (bucketConcat_sorted_step input 0 _
      (pairwise_mod_one input _))
  have hk : ∀ k ∈ input, k < 2 ^ 16 := by
    intro k hk
    have := hkeys k hk
    norm_num at this ⊢
    omega
  have := pairwise_take_getD h2 hpw (Nat.lt_succ_self p) hp
  rwa [Nat.mod_eq_of_lt (getD_lt_of_forall (by norm_num) hk _),
    Nat.mod_eq_of_lt (getD_lt_of_forall (by norm_num) hk _)] at this

theorem two_passes_sort_16bit_keys_witness :
    (3 < 2 ^ 32 ∧ [65535, 0, 32767].length = 3 ∧
      (∀ k ∈ [65535, 0, 32767], k ≤ 0xFFFF) ∧ [0, 1, 2].Perm (List.range 3) ∧
      [9, 9, 9].length = 3 ∧ (List.replicate 256 7).length = 256) ∧
    ∃ out buf2 counts2,
      sortPasses [65535, 0, 32767] 3 [0, 8] [0, 1, 2] [9, 9, 9]
        (List.replicate 256 7) = some (out, buf2, counts2) ∧
      ∀ p, p + 1 < 3 → [65535, 0, 32767].getD (out.getD p 0) 0 ≤
        [65535, 0, 32767].getD (out.getD (p + 1) 0) 0 :=
  ⟨⟨by norm_num, rfl, by simp, by decide, rfl, by rw [List.length_replicate]⟩,
   two_passes_sort_16bit_keys [65535, 0, 32767] [0, 1, 2] [9, 9, 9]
    (List.replicate 256 7) 3 (by norm_num) rfl (by simp) (by decide) rfl
    (by rw [List.length_replicate])⟩

/-! ## Claims about `calculateDepth` -/

/-- C6: for every vertex count `N ≥ 0`, every view transform and every position buffer of
`3 * N` floats, `calculateDepth` returns and leaves `indices[i] = i` for every `i < N`,
whatever `indices` held before and whatever the floats are. -/
theorem calculateDepth_indices_identity (t : Target) (viewProj fBuffer : List F32)
    (depthBuffer indices : List Nat) (N : Nat) (h31 : N < 2 ^ 31)
    (hvp : viewProj.length = 16) (hfb : fBuffer.length = 3 * N)
    (hdb : N ≤ depthBuffer.length) (hidx : N ≤ indices.length) :
    ∃ db idx, calculateDepth t viewProj fBuffer depthBuffer indices (N : Int) = some (db, idx) ∧
      ∀ i, i < N → idx[i]? = some i := by
  refine ⟨_, _, calculateDepth_eq t h31 (by omega) (by omega) hdb hidx, ?_⟩
  intro i hi
  rw [List.getElem?_append_left (by simpa using hi), List.getElem?_range hi]

theorem calculateDepth_indices_identity_witness :
    ((2 : Nat) < 2 ^ 31 ∧ (List.replicate 16 F32.one).length = 16 ∧
      (List.replicate 6 (F32.inf true)).length = 3 * 2 ∧ 2 ≤ [7, 7].length ∧
      2 ≤ [9, 9, 9].length) ∧
    ∃ db idx, calculateDepth ⟨fun _ => 0, fun _ => 0⟩ (List.replicate 16 F32.one)
        (List.replicate 6 (F32.inf true)) [7, 7] [9, 9, 9] ((2 : Nat) : Int) = some (db, idx) ∧
      ∀ i, i < 2 → idx[i]? = some i :=
  ⟨⟨by norm_num, rfl, rfl, by simp, by simp⟩,
   calculateDepth_indices_identity ⟨fun _ => 0, fun _ => 0⟩ (List.replicate 16 F32.one)
    (List.replicate 6 (F32.inf true)) [7, 7] [9, 9, 9] 2 (by norm_num) rfl rfl (by simp)
    (by simp)⟩

theorem depthPhase_eq (t : Target) {viewProj fBuffer : List F32} {depthBuffer : List Nat}
    {N : Nat} (h31 : N < 2 ^ 31) (hvp : 11 ≤ viewProj.length) (hfb : 3 * N ≤ fBuffer.length)
    (hdb : N ≤ depthBuffer.length) :
    depthPhase t viewProj fBuffer depthBuffer (N : Int) =
      some ((List.range N).map (fun i => wrapUInt32 (rawAt t viewProj fBuffer i)) ++
          depthBuffer.drop N,
        minUpTo (rawAt t viewProj fBuffer) N, maxUpTo (rawAt t viewProj fBuffer) N) := by
  unfold depthPhase
  rw [wrapUInt32_natCast h31, depthLoop_eq t hvp hfb hdb N (Nat.le_refl _)]

theorem minUpTo_range (raw : Nat → Int) (hraw : ∀ i, -2 ^ 31 ≤ raw i ∧ raw i < 2 ^ 31)
    (n : Nat) : -2 ^ 31 ≤ minUpTo raw n ∧ minUpTo raw n < 2 ^ 31 := by
  induction n with
  | zero =>
    unfold minUpTo
    omega
  | succ n ih =>
    rw [minUpTo]
    have := hraw n
    split <;> omega

theorem maxUpTo_range (raw : Nat → Int) (hraw : ∀ i, -2 ^ 31 ≤ raw i ∧ raw i < 2 ^ 31)
    (n : Nat) : -2 ^ 31 ≤ maxUpTo raw n ∧ maxUpTo raw n < 2 ^ 31 := by
  induction n with
  | zero =>
    unfold maxUpTo wrapInt32
    omega
  | succ n ih =>
    rw [maxUpTo]
    have := hraw n
    split <;> omega

theorem keys_get {f : Nat → Nat} {tail : List Nat} {N i : Nat} (hi : i < N) :
    ((List.range N).map f ++ tail)[i]? = some (f i) := by
  rw [List.getElem?_append_left (by simpa using hi), List.getElem?_map,
    List.getElem?_range hi]
  rfl

/-- C7 (amended): on buffers of the required sizes `calculateDepth` returns and writes `N`
keys. When the `int32_t` difference `maxDepth - minDepth` is positive every key lies in
`[0, 0xFFFF]`. When it is not positive (all raw depths equal, or a spread of `2^31` or more,
which wraps) the product of line 32 is a NaN, `+infinity` or a float with the sign bit set,
and the key is `0` or the result the target gives for converting that very product to
`uint32_t`. -/
theorem calculateDepth_keys_in_range (t : Target) (viewProj fBuffer : List F32)
    (depthBuffer indices : List Nat) (N : Nat) (h31 : N < 2 ^ 31)
    (hvp : viewProj.length = 16) (hfb : fBuffer.length = 3 * N)
    (hdb : N ≤ depthBuffer.length) (hidx : N ≤ indices.length) :
    ∃ db1 mn mx db idx,
      depthPhase t viewProj fBuffer depthBuffer (N : Int) = some (db1, mn, mx) ∧
      calculateDepth t viewProj fBuffer depthBuffer indices (N : Int) = some (db, idx) ∧
      db.length = depthBuffer.length ∧
      ∀ i, i < N → ∃ d key, db1[i]? = some d ∧ db[i]? = some key ∧
        (0 < wrapInt32 (mx - mn) → key ≤ 0xFFFF) ∧
        (wrapInt32 (mx - mn) ≤ 0 →
          (keyProduct mn (depthInv mn mx) d = F32.nan ∨
            keyProduct mn (depthInv mn mx) d = F32.inf false ∨
            F32.Signed true (keyProduct mn (depthInv mn mx) d)) ∧
          (key = 0 ∨ key = t.f2u (keyProduct mn (depthInv mn mx) d) % 2 ^ 32)) := by
  refine ⟨_, _, _, _, _, depthPhase_eq t h31 (by omega) (by omega) hdb,
    calculateDepth_eq t h31 (by omega) (by omega) hdb hidx, ?_, ?_⟩
  · rw [List.length_append, List.length_map, List.length_range, List.length_drop]
    omega
  · intro i hi
    refine ⟨_, _, keys_get hi, keys_get hi, ?_, ?_⟩
    · intro hpos
      have hmin := minUpTo_le (rawAt t viewProj fBuffer) N hi
      have hmax := le_maxUpTo (rawAt t viewProj fBuffer) N hi
      have hr := toInt32_range t (scaledDepth viewProj fBuffer i)
      have hmr := minUpTo_range (rawAt t viewProj fBuffer)
        (fun k => toInt32_range t (scaledDepth viewProj fBuffer k)) N
      have hxr := maxUpTo_range (rawAt t viewProj fBuffer)
        (fun k => toInt32_range t (scaledDepth viewProj fBuffer k)) N
      have hw : 0 < maxUpTo (rawAt t viewProj fBuffer) N -
          minUpTo (rawAt t viewProj fBuffer) N ∧
          maxUpTo (rawAt t viewProj fBuffer) N -
            minUpTo (rawAt t viewProj fBuffer) N < 2 ^ 31 := by
        unfold wrapInt32 at hpos
        omega
      exact quantize_le t hr hmr hmin hmax hw.1 hw.2
    · intro hle
      have hclass := keyProduct_nonpos (minUpTo (rawAt t viewProj fBuffer) N)
        (maxUpTo (rawAt t viewProj fBuffer) N) (wrapUInt32 (rawAt t viewProj fBuffer i)) hle
      refine ⟨hclass, ?_⟩
      rw [quantize_eq_keyProduct]
      exact toUInt32_exceptional t hclass

set_option maxRecDepth 20000 in
theorem calculateDepth_keys_in_range_witness :
    ((2 : Nat) < 2 ^ 31 ∧ (List.replicate 16 F32.one).length = 16 ∧
      [F32.ofInt 1, F32.ofInt 1, F32.ofInt 1, F32.ofInt 2, F32.ofInt 2, F32.ofInt 2].length =
        3 * 2 ∧ 2 ≤ [7, 7].length ∧ 2 ≤ [9, 9, 9].length) ∧
    depthPhase allOnesTarget (List.replicate 16 F32.one)
      [F32.ofInt 1, F32.ofInt 1, F32.ofInt 1, F32.ofInt 2, F32.ofInt 2, F32.ofInt 2]
      [7, 7] ((2 : Nat) : Int) = some ([12288, 24576], 12288, 24576) ∧
    0 < wrapInt32 (24576 - 12288) ∧
    ∃ db idx,
      calculateDepth allOnesTarget (List.replicate 16 F32.one)
        [F32.ofInt 1, F32.ofInt 1, F32.ofInt 1, F32.ofInt 2, F32.ofInt 2, F32.ofInt 2]
        [7, 7] [9, 9, 9] ((2 : Nat) : Int) = some (db, idx) ∧
      db.length = [7, 7].length ∧
      ∀ i, i < 2 → ∃ key, db[i]? = some key ∧ key ≤ 0xFFFF := by
  have hphase : depthPhase allOnesTarget (List.replicate 16 F32.one)
      [F32.ofInt 1, F32.ofInt 1, F32.ofInt 1, F32.ofInt 2, F32.ofInt 2, F32.ofInt 2]
      [7, 7] ((2 : Nat) : Int) = some ([12288, 24576], 12288, 24576) := by decide
  have hpos : 0 < wrapInt32 (24576 - 12288) := by decide
  obtain ⟨db1, mn, mx, db, idx, hp, hcalc, hlen, hkeys⟩ :=
    calculateDepth_keys_in_range allOnesTarget (List.replicate 16 F32.one)
      [F32.ofInt 1, F32.ofInt 1, F32.ofInt 1, F32.ofInt 2, F32.ofInt 2, F32.ofInt 2]
      [7, 7] [9, 9, 9] 2 (by norm_num) rfl rfl (by simp) (by simp)
  rw [hphase] at hp
  injection hp with hp
  injection hp with _ hp
  injection hp with hmn hmx
  subst hmn hmx
  refine ⟨⟨by norm_num, rfl, rfl, by simp, by simp⟩, hphase, hpos, db, idx, hcalc, hlen, ?_⟩
  intro i hi
  obtain ⟨d, key, _, hkey, hbound, _⟩ := hkeys i hi
  exact ⟨key, hkey, hbound hpos⟩

set_option maxRecDepth 20000 in
/-- C7 fails as stated: for one vertex the range is zero, the product is a NaN, and on a
target that converts NaN to `0xFFFFFFFF` the key written is `0xFFFFFFFF`, outside
`[0, 0xFFFF]`. -/
theorem calculateDepth_keys_counterexample :
    calculateDepth allOnesTarget
        [F32.ofInt 0, F32.ofInt 0, F32.ofInt 0, F32.ofInt 0, F32.ofInt 0, F32.ofInt 0,
          F32.ofInt 0, F32.ofInt 0, F32.ofInt 0, F32.ofInt 0, F32.one, F32.ofInt 0,
          F32.ofInt 0, F32.ofInt 0, F32.ofInt 0, F32.ofInt 0]
        [F32.ofInt 0, F32.ofInt 0, F32.ofInt 1] [0] [0] 1 = some ([0xFFFFFFFF], [0]) ∧
      ¬ (0xFFFFFFFF ≤ 0xFFFF) := by
  decide

set_option maxRecDepth 20000 in
theorem degenerate_consts (t : Target) :
    F32.div F32.one (F32.ofInt 0) = F32.inf false ∧
    F32.mul (F32.mul (F32.ofInt ((0 : Nat) : Int)) (F32.inf false)) (F32.ofInt 0xffff) =
      F32.nan ∧
    toUInt32 t F32.nan = t.f2u F32.nan % 2 ^ 32 :=
  ⟨by decide, by decide, rfl⟩

/-- C8 (amended): when all raw depths are equal (`maxDepth == minDepth` after the first
loop) the code does divide by zero: `depthInv` is `1.0f / 0 = +infinity`, every product
`0 * depthInv * 0xffff` is a NaN, and every key is what the target's `float → uint32_t`
conversion yields for NaN; the keys are `0` exactly on targets that convert NaN to `0`. -/
theorem calculateDepth_degenerate (t : Target) (viewProj fBuffer : List F32)
    (depthBuffer indices : List Nat) (N : Nat) (h31 : N < 2 ^ 31)
    (hvp : viewProj.length = 16) (hfb : fBuffer.length = 3 * N)
    (hdb : N ≤ depthBuffer.length) (hidx : N ≤ indices.length)
    (db1 : List Nat) (mn mx : Int)
    (hphase : depthPhase t viewProj fBuffer depthBuffer (N : Int) = some (db1, mn, mx))
    (heq : mx = mn) :
    depthInv mn mx = F32.inf false ∧
    ∃ db idx, calculateDepth t viewProj fBuffer depthBuffer indices (N : Int) = some (db, idx) ∧
      ∀ i, i < N → db[i]? = some (t.f2u F32.nan % 2 ^ 32) := by
  obtain ⟨k1, k2, k3⟩ := degenerate_consts t
  rw [depthPhase_eq t h31 (by omega) (by omega) hdb] at hphase
  injection hphase with hphase
  injection hphase with _ hphase
  injection hphase with hmn hmx
  have hinv : depthInv mn mx = F32.inf false := by
    unfold depthInv
    rw [heq, sub_self]
    exact k1
  refine ⟨hinv, _, _, calculateDepth_eq t h31 (by omega) (by omega) hdb hidx, ?_⟩
  intro i hi
  rw [keys_get hi, hmn, hmx, hinv]
  have hmin := minUpTo_le (rawAt t viewProj fBuffer) N hi
  have hmax := le_maxUpTo (rawAt t viewProj fBuffer) N hi
  rw [hmn] at hmin
  rw [hmx, heq] at hmax
  have hraw : rawAt t viewProj fBuffer i = mn := by omega
  have hoff : wrapUInt32 ((wrapUInt32 mn : Int) - (wrapUInt32 mn : Int)) = 0 := by
    rw [sub_self]
    rfl
  unfold quantize
  rw [hraw, hoff, k2, k3]

set_option maxRecDepth 20000 in
theorem calculateDepth_degenerate_witness :
    ((2 : Nat) < 2 ^ 31 ∧ (List.replicate 16 F32.one).length = 16 ∧
      (List.replicate 6 F32.one).length = 3 * 2 ∧ 2 ≤ [7, 7].length ∧
      2 ≤ [9, 9, 9].length ∧
      depthPhase indefiniteTarget (List.replicate 16 F32.one) (List.replicate 6 F32.one)
        [7, 7] ((2 : Nat) : Int) = some ([12288, 12288], 12288, 12288)) ∧
    depthInv 12288 12288 = F32.inf false ∧
    ∃ db idx, calculateDepth indefiniteTarget (List.replicate 16 F32.one)
        (List.replicate 6 F32.one) [7, 7] [9, 9, 9] ((2 : Nat) : Int) = some (db, idx) ∧
      ∀ i, i < 2 → db[i]? = some (indefiniteTarget.f2u F32.nan % 2 ^ 32) :=
  ⟨⟨by norm_num, rfl, rfl, by simp, by simp, by decide⟩,
   calculateDepth_degenerate indefiniteTarget (List.replicate 16 F32.one)
    (List.replicate 6 F32.one) [7, 7] [9, 9, 9] 2 (by norm_num) rfl rfl (by simp) (by simp)
    [12288, 12288] 12288 12288 (by decide) rfl⟩

set_option maxRecDepth 20000 in
/-- C8 fails as stated: two vertices at the same depth on a target that converts NaN to
`0xFFFFFFFF`: `depthInv` is `+infinity` and both keys are `0xFFFFFFFF`, not `0`. -/
theorem calculateDepth_degenerate_counterexample :
    depthPhase allOnesTarget
        [F32.ofInt 0, F32.ofInt 0, F32.ofInt 0, F32.ofInt 0, F32.ofInt 0, F32.ofInt 0,
          F32.ofInt 0, F32.ofInt 0, F32.ofInt 0, F32.ofInt 0, F32.one, F32.ofInt 0,
          F32.ofInt 0, F32.ofInt 0, F32.ofInt 0, F32.ofInt 0]
        [F32.ofInt 0, F32.ofInt 0, F32.ofInt 1, F32.ofInt 0, F32.ofInt 0, F32.ofInt 1]
        [0, 0] 2 = some ([4096, 4096], 4096, 4096) ∧
    depthInv 4096 4096 = F32.inf false ∧
    calculateDepth allOnesTarget
        [F32.ofInt 0, F32.ofInt 0, F32.ofInt 0, F32.ofInt 0, F32.ofInt 0, F32.ofInt 0,
          F32.ofInt 0, F32.ofInt 0, F32.ofInt 0, F32.ofInt 0, F32.one, F32.ofInt 0,
          F32.ofInt 0, F32.ofInt 0, F32.ofInt 0, F32.ofInt 0]
        [F32.ofInt 0, F32.ofInt 0, F32.ofInt 1, F32.ofInt 0, F32.ofInt 0, F32.ofInt 1]
        [0, 0] [0, 0] 2 = some ([0xFFFFFFFF, 0xFFFFFFFF], [0, 1]) := by
  decide

set_option maxRecDepth 20000 in
theorem example_scaledDepth (a0 a1 a3 a4 a5 a7 a8 a9 a11 a12 a13 a14 a15 : F32) :
    scaledDepth [a0, a1, F32.ofInt 0, a3, a4, a5, F32.ofInt 0, a7, a8, a9, F32.one, a11, a12,
        a13, a14, a15]
      [F32.ofInt 0, F32.ofInt 0, F32.ofInt 5, F32.ofInt 0, F32.ofInt 0, F32.ofInt 1,
        F32.ofInt 0, F32.ofInt 0, F32.ofInt 3] 0 = F32.ofInt 20480 ∧
    scaledDepth [a0, a1, F32.ofInt 0, a3, a4, a5, F32.ofInt 0, a7, a8, a9, F32.one, a11, a12,
        a13, a14, a15]
      [F32.ofInt 0, F32.ofInt 0, F32.ofInt 5, F32.ofInt 0, F32.ofInt 0, F32.ofInt 1,
        F32.ofInt 0, F32.ofInt 0, F32.ofInt 3] 1 = F32.ofInt 4096 ∧
    scaledDepth [a0, a1, F32.ofInt 0, a3, a4, a5, F32.ofInt 0, a7, a8, a9, F32.one, a11, a12,
        a13, a14, a15]
      [F32.ofInt 0, F32.ofInt 0, F32.ofInt 5, F32.ofInt 0, F32.ofInt 0, F32.ofInt 1,
        F32.ofInt 0, F32.ofInt 0, F32.ofInt 3] 2 = F32.ofInt 12288 := by
  simp only [scaledDepth, List.getD_cons_succ, List.getD_cons_zero]
  refine ⟨?_, ?_, ?_⟩ <;> decide

set_option maxRecDepth 20000 in
theorem example_quantize (t : Target) :
    quantize t 4096 (depthInv 4096 20480) (wrapUInt32 20480) = 0xFFFF ∧
    quantize t 4096 (depthInv 4096 20480) (wrapUInt32 4096) = 0 ∧
    quantize t 4096 (depthInv 4096 20480) (wrapUInt32 12288) = 0x7FFF := by
  refine ⟨?_, ?_, ?_⟩
  · exact toUInt32_of_trunc t (z := 0xFFFF) (by decide) (by decide)
  · exact toUInt32_of_trunc t (z := 0) (by decide) (by decide)
  · exact toUInt32_of_trunc t (z := 0x7FFF) (by decide) (by decide)

set_option maxRecDepth 20000 in
/-- C10: the example of the spec. For the positions `(0,0,5)`, `(0,0,1)`, `(0,0,3)` and any
transform with `viewProj[2] = 0`, `viewProj[6] = 0`, `viewProj[10] = 1`, the raw fixed-point
depths are 20480, 4096, 12288, `calculateDepth` writes the keys `(0xFFFF, 0, 0x7FFF)` and the
indices `[0, 1, 2]`, and the passes with bit offsets 0 and 8 on these buffers give
`[1, 2, 0]`. -/
theorem spec_example (t : Target) (a0 a1 a3 a4 a5 a7 a8 a9 a11 a12 a13 a14 a15 : F32)
    (depthBuffer indices buf counts : List Nat) (hdb : depthBuffer.length = 3)
    (hidx : indices.length = 3) (hbuf : buf.length = 3) (hc : counts.length = 256) :
    rawDepth t [a0, a1, F32.ofInt 0, a3, a4, a5, F32.ofInt 0, a7, a8, a9, F32.one, a11, a12,
        a13, a14, a15]
      [F32.ofInt 0, F32.ofInt 0, F32.ofInt 5, F32.ofInt 0, F32.ofInt 0, F32.ofInt 1,
        F32.ofInt 0, F32.ofInt 0, F32.ofInt 3] 0 = some 20480 ∧
    rawDepth t [a0, a1, F32.ofInt 0, a3, a4, a5, F32.ofInt 0, a7, a8, a9, F32.one, a11, a12,
        a13, a14, a15]
      [F32.ofInt 0, F32.ofInt 0, F32.ofInt 5, F32.ofInt 0, F32.ofInt 0, F32.ofInt 1,
        F32.ofInt 0, F32.ofInt 0, F32.ofInt 3] 1 = some 4096 ∧
    rawDepth t [a0, a1, F32.ofInt 0, a3, a4, a5, F32.ofInt 0, a7, a8, a9, F32.one, a11, a12,
        a13, a14, a15]
      [F32.ofInt 0, F32.ofInt 0, F32.ofInt 5, F32.ofInt 0, F32.ofInt 0, F32.ofInt 1,
        F32.ofInt 0, F32.ofInt 0, F32.ofInt 3] 2 = some 12288 ∧
    calculateDepth t [a0, a1, F32.ofInt 0, a3, a4, a5, F32.ofInt 0, a7, a8, a9, F32.one, a11,
        a12, a13, a14, a15]
      [F32.ofInt 0, F32.ofInt 0, F32.ofInt 5, F32.ofInt 0, F32.ofInt 0, F32.ofInt 1,
        F32.ofInt 0, F32.ofInt 0, F32.ofInt 3] depthBuffer indices 3 =
      some ([0xFFFF, 0, 0x7FFF], [0, 1, 2]) ∧
    ∃ buf2 counts2, sortPasses [0xFFFF, 0, 0x7FFF] 3 [0, 8] [0, 1, 2] buf counts =
      some ([1, 2, 0], buf2, counts2) := by
  obtain ⟨s0, s1, s2⟩ := example_scaledDepth a0 a1 a3 a4 a5 a7 a8 a9 a11 a12 a13 a14 a15
  obtain ⟨q0, q1, q2⟩ := example_quantize t
  have r0 := toInt32_of_trunc t (x := F32.ofInt 20480) (z := 20480) (by decide) (by decide)
  have r1 := toInt32_of_trunc t (x := F32.ofInt 4096) (z := 4096) (by decide) (by decide)
  have r2 := toInt32_of_trunc t (x := F32.ofInt 12288) (z := 12288) (by decide) (by decide)
  rw [← s0] at r0
  rw [← s1] at r1
  rw [← s2] at r2
  have hmin : minUpTo (rawAt t [a0, a1, F32.ofInt 0, a3, a4, a5, F32.ofInt 0, a7, a8, a9,
      F32.one, a11, a12, a13, a14, a15]
      [F32.ofInt 0, F32.ofInt 0, F32.ofInt 5, F32.ofInt 0, F32.ofInt 0, F32.ofInt 1,
        F32.ofInt 0, F32.ofInt 0, F32.ofInt 3]) 3 = 4096 := by
    simp only [minUpTo, rawAt, r0, r1, r2]
    decide
  have hmax : maxUpTo (rawAt t [a0, a1, F32.ofInt 0, a3, a4, a5, F32.ofInt 0, a7, a8, a9,
      F32.one, a11, a12, a13, a14, a15]
      [F32.ofInt 0, F32.ofInt 0, F32.ofInt 5, F32.ofInt 0, F32.ofInt 0, F32.ofInt 1,
        F32.ofInt 0, F32.ofInt 0, F32.ofInt 3]) 3 = 20480 := by
    simp only [maxUpTo, rawAt, r0, r1, r2]
    decide
  refine ⟨?_, ?_, ?_, ?_, ?_⟩
  · rw [rawDepth_eq t (n := 3) (by simp) (by simp) (by norm_num)]
    exact congrArg some r0
  · rw [rawDepth_eq t (n := 3) (by simp) (by simp) (by norm_num)]
    exact congrArg some r1
  · rw [rawDepth_eq t (n := 3) (by simp) (by simp) (by norm_num)]
    exact congrArg some r2
  · have h := @calculateDepth_eq t [a0, a1, F32.ofInt 0, a3, a4, a5,
        F32.ofInt 0, a7, a8, a9, F32.one, a11, a12, a13, a14, a15]
      [F32.ofInt 0, F32.ofInt 0, F32.ofInt 5, F32.ofInt 0, F32.ofInt 0,
        F32.ofInt 1, F32.ofInt 0, F32.ofInt 0, F32.ofInt 3]
      depthBuffer indices 3
      (by norm_num) (by simp) (by simp) (by omega) (by omega)
    rw [hmin, hmax, List.drop_of_length_le (by omega), List.drop_of_length_le (by omega)] at h
    have hr : List.range 3 = [0, 1, 2] := by decide
    rw [hr] at h
    simp only [List.map_cons, List.map_nil, List.append_nil] at h
    unfold rawAt at h
    rw [r0, r1, r2, q0, q1, q2] at h
    exact h
  · have p1 := @radixSortPass_eq [0xFFFF, 0, 0x7FFF] [0, 1, 2] buf counts 3 0
      (by norm_num) (by simp) (by omega) (by omega) (by decide) (by simp)
    have b1 : bucketConcat (keyDigit [0xFFFF, 0, 0x7FFF] (0 : Int).toNat)
        (List.take 3 [0, 1, 2]) 256 = [1, 0, 2] := by decide
    rw [b1, List.drop_of_length_le (by omega), List.append_nil] at p1
    have p2 := @radixSortPass_eq [0xFFFF, 0, 0x7FFF] [1, 0, 2] [0, 1, 2]
      (tbl (fun b => lows (keyDigit [0xFFFF, 0, 0x7FFF] (0 : Int).toNat) (b + 1)
        (List.take 3 [0, 1, 2])) (counts.drop 256)) 3 8
      (by norm_num) (by simp) (by simp) (by rw [tbl_length]; omega) (by decide) (by simp)
    have b2 : bucketConcat (keyDigit [0xFFFF, 0, 0x7FFF] (8 : Int).toNat)
        (List.take 3 [1, 0, 2]) 256 = [1, 2, 0] := by decide
    rw [b2] at p2
    simp only [sortPasses, p1, p2, Option.some_bind]
    exact ⟨_, _, rfl⟩

theorem spec_example_witness :
    ([7, 7, 7].length = 3 ∧ [8, 8, 8].length = 3 ∧ [9, 9, 9].length = 3 ∧
      (List.replicate 256 5).length = 256) ∧
    calculateDepth ⟨fun _ => 0, fun _ => 0⟩
        [F32.nan, F32.nan, F32.ofInt 0, F32.nan, F32.nan, F32.nan, F32.ofInt 0, F32.nan,
          F32.nan, F32.nan, F32.one, F32.nan, F32.nan, F32.nan, F32.nan, F32.nan]
        [F32.ofInt 0, F32.ofInt 0, F32.ofInt 5, F32.ofInt 0, F32.ofInt 0, F32.ofInt 1,
          F32.ofInt 0, F32.ofInt 0, F32.ofInt 3] [7, 7, 7] [8, 8, 8] 3 =
      some ([0xFFFF, 0, 0x7FFF], [0, 1, 2]) :=
  ⟨⟨rfl, rfl, rfl, by rw [List.length_replicate]⟩,
   (spec_example ⟨fun _ => 0, fun _ => 0⟩ F32.nan F32.nan F32.nan F32.nan F32.nan F32.nan
    F32.nan F32.nan F32.nan F32.nan F32.nan F32.nan F32.nan [7, 7, 7] [8, 8, 8] [9, 9, 9]
    (List.replicate 256 5) rfl rfl rfl (by rw [List.length_replicate])).2.2.2.1⟩

/-! ## Further claims about `radixSortPass` -/

/-- C11: on contract-conforming buffers (a counts buffer of 256 cells, `indices` and the
output of `N` cells, a bit offset in {0, 8, 16, 24}, every index a valid position of the key
buffer) `radixSortPass` returns, so no access falls outside its buffer; in particular the
position the scatter loop reads from `counts` in iteration `i` is below `N` at that
moment. -/
theorem radixSortPass_in_bounds (input indices sortedIndices counts : List Nat) (N : Nat)
    (bitOffset : Int) (h32 : N < 2 ^ 32) (hN : N ≤ indices.length)
    (ho : N ≤ sortedIndices.length) (hc : 256 ≤ counts.length)
    (hoff : bitOffset = 0 ∨ bitOffset = 8 ∨ bitOffset = 16 ∨ bitOffset = 24)
    (hv : ∀ x ∈ indices.take N, x < input.length) :
    (∃ out counts2, radixSortPass input indices sortedIndices counts N bitOffset =
        some (out, counts2)) ∧
      ∀ i, i < N → ∃ si ci p,
        scatterPhase input indices sortedIndices counts N bitOffset i = some (si, ci) ∧
        ci[keyDigit input bitOffset.toNat (indices.getD i 0)]? = some p ∧ p < N := by
  have hlen : (indices.take N).length = N := by rw [List.length_take]; omega
  refine ⟨⟨_, _, radixSortPass_eq h32 hN ho hc (by omega) hv⟩, ?_⟩
  intro i hi
  refine ⟨_, _, scatterPos (keyDigit input bitOffset.toNat) (indices.take N) i,
    scatterPhase_eq h32 hN ho hc (by omega) hv i (by omega), ?_, ?_⟩
  · rw [tbl_get _ _ (keyDigit_lt _ _ _), getD_take hi]
    rfl
  · have := scatterPos_lt (keyDigit input bitOffset.toNat) (indices.take N)
      (show i < (indices.take N).length by omega)
    omega

theorem radixSortPass_in_bounds_witness :
    (3 < 2 ^ 32 ∧ 3 ≤ [2, 0, 1].length ∧ 3 ≤ [9, 9, 9].length ∧
      256 ≤ (List.replicate 256 7).length) ∧
    ((∃ out counts2, radixSortPass [65535, 0, 32767] [2, 0, 1] [9, 9, 9]
        (List.replicate 256 7) 3 8 = some (out, counts2)) ∧
      ∀ i, i < 3 → ∃ si ci p,
        scatterPhase [65535, 0, 32767] [2, 0, 1] [9, 9, 9] (List.replicate 256 7) 3 8 i =
          some (si, ci) ∧
        ci[keyDigit [65535, 0, 32767] (8 : Int).toNat ([2, 0, 1].getD i 0)]? = some p ∧
        p < 3) :=
  ⟨⟨by norm_num, by simp, by simp, by rw [List.length_replicate]⟩,
   radixSortPass_in_bounds [65535, 0, 32767] [2, 0, 1] [9, 9, 9] (List.replicate 256 7) 3 8
    (by norm_num) (by simp) (by simp) (by rw [List.length_replicate]) (by simp) (by simp)⟩

/-- C12: with `vertexCount = 0` both operations leave their output buffers as they were:
`calculateDepth` returns `depthBuffer` and `indices` unchanged for every transform and every
buffer content, and `radixSortPass` returns `sortedIndices` unchanged for every bit offset
(the shift is never evaluated) and every buffer content; only the counts scratch buffer is
cleared. -/
theorem zero_vertices_noop (t : Target) (viewProj fBuffer : List F32)
    (depthBuffer indices input indices2 sortedIndices counts : List Nat) (bitOffset : Int)
    (hc : 256 ≤ counts.length) :
    calculateDepth t viewProj fBuffer depthBuffer indices 0 = some (depthBuffer, indices) ∧
    radixSortPass input indices2 sortedIndices counts 0 bitOffset =
      some (sortedIndices, List.replicate 256 0 ++ counts.drop 256) := by
  constructor
  · rfl
  · have hacc := accumLoop_eq (fun _ => 0) [] (counts.drop 256) (by simp) 256 (Nat.le_refl _)
    have h0 : tbl (fun b => cnt (fun _ => 0) b []) (counts.drop 256) =
        tbl (fun _ => 0) (counts.drop 256) := tbl_congr _ (fun _ _ => rfl)
    have h1 : tbl (fun b => if b < 256 then lows (fun _ => 0) b [] else cnt (fun _ => 0) b [])
        (counts.drop 256) = tbl (fun _ => 0) (counts.drop 256) :=
      tbl_congr _ (fun b hb => by simp only [if_pos hb]; rfl)
    rw [h0, h1] at hacc
    have hcount : forLoop (countBody input indices2 bitOffset) 0
        (tbl (fun _ => 0) (counts.drop 256)) = some (tbl (fun _ => 0) (counts.drop 256)) := rfl
    have hscatter : forLoop (scatterBody input indices2 bitOffset) 0
        (sortedIndices, tbl (fun _ => 0) (counts.drop 256)) =
        some (sortedIndices, tbl (fun _ => 0) (counts.drop 256)) := rfl
    unfold radixSortPass scatterPhase offsetsPhase
    rw [memsetCounts_eq hc, Option.some_bind, hcount, Option.some_bind, hacc, Option.map_some',
      Option.some_bind, hscatter]
    unfold tbl
    rw [← replicate_zero_eq]

theorem zero_vertices_noop_witness :
    256 ≤ (List.replicate 256 7).length ∧
    (calculateDepth indefiniteTarget [] [] [5, 6] [7, 8] 0 = some ([5, 6], [7, 8]) ∧
      radixSortPass [1, 2] [3, 4] [9, 9] (List.replicate 256 7) 0 40 =
        some ([9, 9], List.replicate 256 0 ++ (List.replicate 256 7).drop 256)) :=
  ⟨by rw [List.length_replicate],
   zero_vertices_noop indefiniteTarget [] [] [5, 6] [7, 8] [1, 2] [3, 4] [9, 9]
    (List.replicate 256 7) 40 (by rw [List.length_replicate])⟩

/-- C13: the counts buffer carries no state into a pass. Two runs that agree on the key
buffer, the indices, the output buffer, `N` and the bit offset and start from arbitrary
contents of the 256-cell counts buffer have the same result, output and counts alike; on a
valid input both return. -/
theorem radixSortPass_counts_stateless (input indices sortedIndices counts1 counts2 : List Nat)
    (N : Nat) (bitOffset : Int) (hc1 : counts1.length = 256) (hc2 : counts2.length = 256) :
    radixSortPass input indices sortedIndices counts1 N bitOffset =
        radixSortPass input indices sortedIndices counts2 N bitOffset ∧
      (N < 2 ^ 32 → N ≤ indices.length → N ≤ sortedIndices.length →
        (bitOffset = 0 ∨ bitOffset = 8 ∨ bitOffset = 16 ∨ bitOffset = 24) →
        (∀ x ∈ indices.take N, x < input.length) →
        ∃ out counts3,
          radixSortPass input indices sortedIndices counts1 N bitOffset = some (out, counts3) ∧
          radixSortPass input indices sortedIndices counts2 N bitOffset =
            some (out, counts3)) := by
  have hm : memsetCounts counts1 = memsetCounts counts2 := by
    rw [memsetCounts_eq (by omega), memsetCounts_eq (by omega),
      List.drop_of_length_le (by omega), List.drop_of_length_le (by omega)]
  have heq : radixSortPass input indices sortedIndices counts1 N bitOffset =
      radixSortPass input indices sortedIndices counts2 N bitOffset := by
    unfold radixSortPass scatterPhase offsetsPhase
    rw [hm]
  refine ⟨heq, ?_⟩
  intro h32 hN ho hoff hv
  refine ⟨_, _, radixSortPass_eq h32 hN ho (by omega) (by omega) hv, ?_⟩
  rw [← heq]
  exact radixSortPass_eq h32 hN ho (by omega) (by omega) hv

theorem radixSortPass_counts_stateless_witness :
    ((List.replicate 256 7).length = 256 ∧ (List.replicate 256 0).length = 256) ∧
    radixSortPass [65535, 0, 32767] [2, 0, 1] [9, 9, 9] (List.replicate 256 7) 3 8 =
      radixSortPass [65535, 0, 32767] [2, 0, 1] [9, 9, 9] (List.replicate 256 0) 3 8 :=
  ⟨⟨by rw [List.length_replicate], by rw [List.length_replicate]⟩,
   (radixSortPass_counts_stateless [65535, 0, 32767] [2, 0, 1] [9, 9, 9]
      (List.replicate 256 7) (List.replicate 256 0) 3 8 (by rw [List.length_replicate])
      (by rw [List.length_replicate])).1⟩

/-- C14: `radixSortPass` equals the reference stable counting sort by one byte: on a valid
input it returns and the first `N` cells of the output are the concatenation, for
`b = 0, ..., 255` in that order, of the input elements with digit `b`, in input order. -/
theorem radixSortPass_refines_counting_sort (input indices sortedIndices counts : List Nat)
    (N : Nat) (bitOffset : Int) (h32 : N < 2 ^ 32) (hN : N ≤ indices.length)
    (ho : N ≤ sortedIndices.length) (hc : 256 ≤ counts.length)
    (hoff : bitOffset = 0 ∨ bitOffset = 8 ∨ bitOffset = 16 ∨ bitOffset = 24)
    (hv : ∀ x ∈ indices.take N, x < input.length) :
    ∃ out counts2, radixSortPass input indices sortedIndices counts N bitOffset =
        some (out, counts2) ∧
      out.take N = stableCountingSort input bitOffset.toNat (indices.take N) := by
  have hlen : (indices.take N).length = N := by rw [List.length_take]; omega
  refine ⟨_, _, radixSortPass_eq h32 hN ho hc (by omega) hv, ?_⟩
  rw [bucketConcat_take hlen (fun x => keyDigit_lt _ _ _), bucketConcat_eq_flatMap]
  rfl

theorem radixSortPass_refines_counting_sort_witness :
    (3 < 2 ^ 32 ∧ 3 ≤ [2, 0, 1].length ∧ 3 ≤ [9, 9, 9].length ∧
      256 ≤ (List.replicate 256 7).length) ∧
    ∃ out counts2, radixSortPass [65535, 0, 32767] [2, 0, 1] [9, 9, 9]
        (List.replicate 256 7) 3 8 = some (out, counts2) ∧
      out.take 3 = stableCountingSort [65535, 0, 32767] (8 : Int).toNat ([2, 0, 1].take 3) :=
  ⟨⟨by norm_num, by simp, by simp, by rw [List.length_replicate]⟩,
   radixSortPass_refines_counting_sort [65535, 0, 32767] [2, 0, 1] [9, 9, 9]
    (List.replicate 256 7) 3 8 (by norm_num) (by simp) (by simp)
    (by rw [List.length_replicate]) (by simp) (by simp)⟩

/-- C15: after the counting loop and the prefix-sum loop, before the scatter loop, cell `b`
of the counts buffer holds, for every digit `b` in `0..255`, the number of input positions
below `N` whose digit is strictly less than `b`: the exclusive start of bucket `b`. -/
theorem offsets_are_exclusive_starts (input indices counts : List Nat) (N : Nat)
    (bitOffset : Int) (h32 : N < 2 ^ 32) (hN : N ≤ indices.length)
    (hc : 256 ≤ counts.length)
    (hoff : bitOffset = 0 ∨ bitOffset = 8 ∨ bitOffset = 16 ∨ bitOffset = 24)
    (hv : ∀ x ∈ indices.take N, x < input.length) :
    ∃ cs, offsetsPhase input indices counts N bitOffset = some cs ∧
      ∀ b, b < 256 → cs[b]? = some
        ((indices.take N).countP (fun x => decide (keyDigit input bitOffset.toNat x < b))) := by
  refine ⟨_, offsetsPhase_eq _ (by omega) hN hv h32 hc, ?_⟩
  intro b hb
  rw [tbl_get _ _ hb]
  rfl

theorem offsets_are_exclusive_starts_witness :
    (3 < 2 ^ 32 ∧ 3 ≤ [2, 0, 1].length ∧ 256 ≤ (List.replicate 256 7).length) ∧
    ∃ cs, offsetsPhase [65535, 0, 32767] [2, 0, 1] (List.replicate 256 7) 3 8 = some cs ∧
      ∀ b, b < 256 → cs[b]? = some
        (([2, 0, 1].take 3).countP
          (fun x => decide (keyDigit [65535, 0, 32767] (8 : Int).toNat x < b))) :=
  ⟨⟨by norm_num, by simp, by rw [List.length_replicate]⟩,
   offsets_are_exclusive_starts [65535, 0, 32767] [2, 0, 1] (List.replicate 256 7) 3 8
    (by norm_num) (by simp) (by rw [List.length_replicate]) (by simp) (by simp)⟩

set_option maxRecDepth 20000 in
theorem purePasses_example :
    purePasses [0x10000, 0] [0, 8] (List.take 2 [0, 1]) = [0, 1] ∧
    purePasses [0x1000000, 0] [0, 8, 16] (List.take 2 [0, 1]) = [0, 1] := by
  decide

/-- C16: four passes are needed for full 32-bit keys. On the keys `(0x10000, 0)` with the
identity starting permutation the two passes 0 and 8 return the order `[0, 1]`, which is not
ascending in the keys; on the keys `(0x1000000, 0)` the three passes 0, 8, 16 do the same. -/
theorem four_passes_needed :
    (∃ out buf2 counts2,
      sortPasses [0x10000, 0] 2 [0, 8] [0, 1] [0, 0] (List.replicate 256 0) =
        some (out, buf2, counts2) ∧
      ¬ (∀ p, p + 1 < 2 → [0x10000, 0].getD (out.getD p 0) 0 ≤
        [0x10000, 0].getD (out.getD (p + 1) 0) 0)) ∧
    (∃ out buf2 counts2,
      sortPasses [0x1000000, 0] 2 [0, 8, 16] [0, 1] [0, 0] (List.replicate 256 0) =
        some (out, buf2, counts2) ∧
      ¬ (∀ p, p + 1 < 2 → [0x1000000, 0].getD (out.getD p 0) 0 ≤
        [0x1000000, 0].getD (out.getD (p + 1) 0) 0)) := by
  obtain ⟨e1, e2⟩ := purePasses_example
  constructor
  · obtain ⟨out, buf2, counts2, h1, _, h3⟩ := sortPasses_eq [0x10000, 0] 2 (by norm_num)
      [0, 8] (by simp) [0, 1] [0, 0] (List.replicate 256 0) (by simp) (by simp)
      (by rw [List.length_replicate]) (by simp)
    rw [e1] at h3
    refine ⟨out, buf2, counts2, h1, ?_⟩
    intro h
    have := h 0 (by norm_num)
    rw [getD_of_take_eq h3 (show 0 < 2 by norm_num),
      getD_of_take_eq h3 (show 0 + 1 < 2 by norm_num)] at this
    revert this
    decide
  · obtain ⟨out, buf2, counts2, h1, _, h3⟩ := sortPasses_eq [0x1000000, 0] 2 (by norm_num)
      [0, 8, 16] (by simp) [0, 1] [0, 0] (List.replicate 256 0) (by simp) (by simp)
      (by rw [List.length_replicate]) (by simp)
    rw [e2] at h3
    refine ⟨out, buf2, counts2, h1, ?_⟩
    intro h
    have := h 0 (by norm_num)
    rw [getD_of_take_eq h3 (show 0 < 2 by norm_num),
      getD_of_take_eq h3 (show 0 + 1 < 2 by norm_num)] at this
    revert this
    decide

/-- C19: after `radixSortPass` returns on a valid input the counts buffer holds the inclusive
bucket ends: for every digit `b` in `0..255` cell `b` is the number of input positions whose
digit is at most `b`, and cell 255 is `N`. -/
theorem counts_are_inclusive_ends (input indices sortedIndices counts : List Nat) (N : Nat)
    (bitOffset : Int) (h32 : N < 2 ^ 32) (hN : N ≤ indices.length)
    (ho : N ≤ sortedIndices.length) (hc : 256 ≤ counts.length)
    (hoff : bitOffset = 0 ∨ bitOffset = 8 ∨ bitOffset = 16 ∨ bitOffset = 24)
    (hv : ∀ x ∈ indices.take N, x < input.length) :
    ∃ out counts2, radixSortPass input indices sortedIndices counts N bitOffset =
        some (out, counts2) ∧
      (∀ b, b < 256 → counts2[b]? = some
        ((indices.take N).countP (fun x => decide (keyDigit input bitOffset.toNat x ≤ b)))) ∧
      counts2[255]? = some N := by
  have hlen : (indices.take N).length = N := by rw [List.length_take]; omega
  refine ⟨_, _, radixSortPass_eq h32 hN ho hc (by omega) hv, ?_, ?_⟩
  · intro b hb
    rw [tbl_get _ _ hb]
    congr 1
    unfold lows
    apply List.countP_congr
    intro x _
    simp only [decide_eq_true_eq]
    omega
  · rw [tbl_get _ _ (by norm_num), lows_eq_length _ _ _ (fun x _ => keyDigit_lt _ _ _), hlen]

theorem counts_are_inclusive_ends_witness :
    (3 < 2 ^ 32 ∧ 3 ≤ [2, 0, 1].length ∧ 3 ≤ [9, 9, 9].length ∧
      256 ≤ (List.replicate 256 7).length) ∧
    ∃ out counts2, radixSortPass [65535, 0, 32767] [2, 0, 1] [9, 9, 9]
        (List.replicate 256 7) 3 8 = some (out, counts2) ∧
      (∀ b, b < 256 → counts2[b]? = some
        (([2, 0, 1].take 3).countP
          (fun x => decide (keyDigit [65535, 0, 32767] (8 : Int).toNat x ≤ b)))) ∧
      counts2[255]? = some 3 :=
  ⟨⟨by norm_num, by simp, by simp, by rw [List.length_replicate]⟩,
   counts_are_inclusive_ends [65535, 0, 32767] [2, 0, 1] [9, 9, 9] (List.replicate 256 7) 3 8
    (by norm_num) (by simp) (by simp) (by rw [List.length_replicate]) (by simp) (by simp)⟩

/-- C20: a pass over a digit that is the same for all elements is a plain copy. On a valid
input whose `N` selected digits are all equal, in particular for keys all in `[0, 0xFFFF]`
with bit offset 16 or 24, `radixSortPass` returns with `out[i] = indices[i]` for every
`i < N`. -/
theorem constant_digit_pass_copies (input indices sortedIndices counts : List Nat) (N : Nat)
    (bitOffset : Int) (h32 : N < 2 ^ 32) (hN : N ≤ indices.length)
    (ho : N ≤ sortedIndices.length) (hc : 256 ≤ counts.length)
    (hoff : bitOffset = 0 ∨ bitOffset = 8 ∨ bitOffset = 16 ∨ bitOffset = 24)
    (hv : ∀ x ∈ indices.take N, x < input.length)
    (hall : (∀ x ∈ indices.take N, ∀ y ∈ indices.take N,
        keyDigit input bitOffset.toNat x = keyDigit input bitOffset.toNat y) ∨
      ((∀ k ∈ input, k ≤ 0xFFFF) ∧ (bitOffset = 16 ∨ bitOffset = 24))) :
    ∃ out counts2, radixSortPass input indices sortedIndices counts N bitOffset =
        some (out, counts2) ∧
      ∀ i, i < N → out[i]? = indices[i]? := by
  have hlen : (indices.take N).length = N := by rw [List.length_take]; omega
  have hconst : ∃ b0, ∀ x ∈ indices.take N, keyDigit input bitOffset.toNat x = b0 := by
    rcases hall with h | ⟨hk, h16⟩
    · cases hxs : indices.take N with
      | nil => exact ⟨0, fun x hx => by simp at hx⟩
      | cons a l =>
        rw [hxs] at h
        exact ⟨keyDigit input bitOffset.toNat a, fun x hx => h x hx a (List.mem_cons_self _ _)⟩
    · exact ⟨0, fun x _ => keyDigit_high_zero hk (by omega) x⟩
  obtain ⟨b0, hb0⟩ := hconst
  have hb0lt : (indices.take N = []) ∨ b0 < 256 := by
    cases hxs : indices.take N with
    | nil => exact Or.inl rfl
    | cons a l =>
      right
      have := hb0 a (by rw [hxs]; exact List.mem_cons_self _ _)
      rw [← this]
      exact keyDigit_lt _ _ _
  have hcopy : bucketConcat (keyDigit input bitOffset.toNat) (indices.take N) 256 =
      indices.take N := by
    rcases hb0lt with h | h
    · rw [h]
      exact bucketConcat_below _ _ _ (fun x hx => by simp at hx)
    · exact bucketConcat_const _ _ b0 hb0 256 h
  refine ⟨_, _, radixSortPass_eq h32 hN ho hc (by omega) hv, ?_⟩
  intro i hi
  rw [hcopy, List.getElem?_append_left (by omega), List.getElem?_take_of_lt hi]

theorem constant_digit_pass_copies_witness :
    (3 < 2 ^ 32 ∧ 3 ≤ [2, 0, 1].length ∧ 3 ≤ [9, 9, 9].length ∧
      256 ≤ (List.replicate 256 7).length ∧ (∀ k ∈ [65535, 0, 32767], k ≤ 0xFFFF)) ∧
    ∃ out counts2, radixSortPass [65535, 0, 32767] [2, 0, 1] [9, 9, 9]
        (List.replicate 256 7) 3 16 = some (out, counts2) ∧
      ∀ i, i < 3 → out[i]? = [2, 0, 1][i]? :=
  ⟨⟨by norm_num, by simp, by simp, by rw [List.length_replicate], by simp⟩,
   constant_digit_pass_copies [65535, 0, 32767] [2, 0, 1] [9, 9, 9] (List.replicate 256 7) 3 16
    (by norm_num) (by simp) (by simp) (by rw [List.length_replicate]) (by simp) (by simp)
    (Or.inr ⟨by simp, by simp⟩)⟩

/-- C17: the normalisation step of `calculateDepth` is order-preserving. When
`maxDepth > minDepth` and `maxDepth - minDepth` fits `int32_t`, two vertices with
`rawKey_i ≤ rawKey_j` get keys with `depthKeys[i] ≤ depthKeys[j]`, in the binary32 arithmetic
of the code; the same holds for the scaling `(rawKey - minDepth) * 0xFFFF /
(maxDepth - minDepth)` taken in exact arithmetic and truncated. -/
theorem normalisation_order_preserving (t : Target) (viewProj fBuffer : List F32)
    (depthBuffer indices : List Nat) (N : Nat) (h31 : N < 2 ^ 31)
    (hvp : viewProj.length = 16) (hfb : fBuffer.length = 3 * N)
    (hdb : N ≤ depthBuffer.length) (hidx : N ≤ indices.length)
    (db1 : List Nat) (mn mx : Int)
    (hphase : depthPhase t viewProj fBuffer depthBuffer (N : Int) = some (db1, mn, mx))
    (hpos : mn < mx) (hfit : mx - mn < 2 ^ 31) (i j : Nat) (hi : i < N) (hj : j < N)
    (ri rj : Int) (hri : rawDepth t viewProj fBuffer i = some ri)
    (hrj : rawDepth t viewProj fBuffer j = some rj) (hle : ri ≤ rj) :
    ∃ db idx ki kj,
      calculateDepth t viewProj fBuffer depthBuffer indices (N : Int) = some (db, idx) ∧
      db[i]? = some ki ∧ db[j]? = some kj ∧ ki ≤ kj ∧
      (ri - mn) * 0xFFFF / (mx - mn) ≤ (rj - mn) * 0xFFFF / (mx - mn) := by
  rw [depthPhase_eq t h31 (by omega) (by omega) hdb] at hphase
  injection hphase with hphase
  injection hphase with _ hphase
  injection hphase with hmn hmx
  rw [rawDepth_eq t (by omega) (by omega) hi] at hri
  rw [rawDepth_eq t (by omega) (by omega) hj] at hrj
  injection hri with hri
  injection hrj with hrj
  have hmin := minUpTo_le (rawAt t viewProj fBuffer) N hi
  have hmax := le_maxUpTo (rawAt t viewProj fBuffer) N hj
  have hmr := minUpTo_range (rawAt t viewProj fBuffer)
    (fun k => toInt32_range t (scaledDepth viewProj fBuffer k)) N
  have hra := toInt32_range t (scaledDepth viewProj fBuffer i)
  have hrb := toInt32_range t (scaledDepth viewProj fBuffer j)
  rw [hmn] at hmin hmr
  rw [hmx] at hmax
  rw [hri] at hmin
  rw [hrj] at hmax
  have hra2 : -2 ^ 31 ≤ ri ∧ ri < 2 ^ 31 := by rw [← hri]; exact hra
  have hrb2 : -2 ^ 31 ≤ rj ∧ rj < 2 ^ 31 := by rw [← hrj]; exact hrb
  refine ⟨_, _, _, _, calculateDepth_eq t h31 (by omega) (by omega) hdb hidx,
    keys_get hi, keys_get hj, ?_, ?_⟩
  · rw [hmn, hmx, hri, hrj]
    exact quantize_mono t hra2 hrb2 hmr hmin hle hmax (by omega) hfit
  · apply Int.ediv_le_ediv (by omega)
    apply Int.mul_le_mul_of_nonneg_right (by omega) (by norm_num)

set_option maxRecDepth 20000 in
theorem normalisation_order_preserving_witness :
    ((2 : Nat) < 2 ^ 31 ∧ (List.replicate 16 F32.one).length = 16 ∧
      [F32.ofInt 1, F32.ofInt 1, F32.ofInt 1, F32.ofInt 2, F32.ofInt 2, F32.ofInt 2].length =
        3 * 2 ∧ 2 ≤ [7, 7].length ∧ 2 ≤ [9, 9, 9].length ∧
      depthPhase indefiniteTarget (List.replicate 16 F32.one)
        [F32.ofInt 1, F32.ofInt 1, F32.ofInt 1, F32.ofInt 2, F32.ofInt 2, F32.ofInt 2]
        [7, 7] ((2 : Nat) : Int) = some ([12288, 24576], 12288, 24576)) ∧
    ∃ db idx ki kj,
      calculateDepth indefiniteTarget (List.replicate 16 F32.one)
        [F32.ofInt 1, F32.ofInt 1, F32.ofInt 1, F32.ofInt 2, F32.ofInt 2, F32.ofInt 2]
        [7, 7] [9, 9, 9] ((2 : Nat) : Int) = some (db, idx) ∧
      db[0]? = some ki ∧ db[1]? = some kj ∧ ki ≤ kj ∧
      ((12288 : Int) - 12288) * 0xFFFF / (24576 - 12288) ≤
        ((24576 : Int) - 12288) * 0xFFFF / (24576 - 12288) :=
  ⟨⟨by norm_num, rfl, rfl, by simp, by simp, by decide⟩,
   normalisation_order_preserving indefiniteTarget (List.replicate 16 F32.one)
    [F32.ofInt 1, F32.ofInt 1, F32.ofInt 1, F32.ofInt 2, F32.ofInt 2, F32.ofInt 2]
    [7, 7] [9, 9, 9] 2 (by norm_num) rfl rfl (by simp) (by simp) [12288, 24576] 12288 24576
    (by decide) (by norm_num) (by norm_num) 0 1 (by norm_num) (by norm_num) 12288 24576
    (by decide) (by decide) (by norm_num)⟩

/-- C18: the signed raw key survives its round trip through the unsigned depth buffer. For
`int32_t` values `d` (stored into `depthBuffer[i]` as `uint32_t`) and `m` (`minDepth`) with
`m ≤ d`, the subtraction `depthBuffer[i] - minDepth` in `uint32_t` arithmetic is the
mathematical difference `d - m`, also when `d` or `m` is negative. -/
theorem unsigned_difference_round_trip (d m : Int) (hd : -2 ^ 31 ≤ d ∧ d < 2 ^ 31)
    (hm : -2 ^ 31 ≤ m ∧ m < 2 ^ 31) (hle : m ≤ d) :
    ((wrapUInt32 ((wrapUInt32 d : Int) - (wrapUInt32 m : Int)) : Nat) : Int) = d - m := by
  unfold wrapUInt32
  omega

theorem unsigned_difference_round_trip_witness :
    ((-2 ^ 31 ≤ (-5 : Int) ∧ (-5 : Int) < 2 ^ 31) ∧
      (-2 ^ 31 ≤ (-2147483648 : Int) ∧ (-2147483648 : Int) < 2 ^ 31) ∧
      (-2147483648 : Int) ≤ -5) ∧
    ((wrapUInt32 ((wrapUInt32 (-5) : Int) - (wrapUInt32 (-2147483648) : Int)) : Nat) : Int) =
      -5 - -2147483648 :=
  ⟨⟨by norm_num, by norm_num, by norm_num⟩,
   unsigned_difference_round_trip (-5) (-2147483648) (by norm_num) (by norm_num)
    (by norm_num)⟩

end Gsplat
